import Mathlib

/-!
Shallow embedding of the log-helper core (Rust) into Lean 4.

Conventions used throughout:
* A file read is modelled as `Option String`: `none` stands for a missing or
  unreadable file (`file_exists` false, or an I/O error from the reader), and
  `some content` for the decoded text content.
* Rust regular-expression patterns from the source are compiled by hand into
  deterministic scanners over `List Char`.  All patterns in the source are
  simple enough that the leftmost-first match is computed by trying every
  start position from the left (`searchFirst`), greedy `X+`/`X*` runs followed
  by a literal starting with a character outside the class reduce to maximal
  runs, and a greedy `.*` picks the rightmost viable start (`searchLast`).
* `\s` is modelled by `Char.isWhitespace`, `\d` by `Char.isDigit`, `\w` by
  ASCII alphanumerics plus underscore.  The Rust originals use Unicode
  classes; they agree on all ASCII input, which is all the claims use.
* Machine integers (`i32`) are modelled as `Int` with the `i32` range check
  where the source can fail (string parsing); the execution counter is an
  `Int` without wrap, since files are finite lists.
* The vendor DAO marker regex (`DAO_REGEX`) is abstracted as a pluggable
  per-line capture function `daoC : String → Option String`; the window logic
  of `find_dao_class_name` itself is translated faithfully.  No claim under
  verification depends on the dao attribution value.
-/

namespace LogHelper

/-- Single-quote character, used by the SQL escaping logic. -/
def sqC : Char := Char.ofNat 39

/-- Regex `\s`, modelled as whitespace. -/
def isWs (c : Char) : Bool := c.isWhitespace

/-- Regex class `[a-f0-9]` used for transaction ids. -/
def isHexLower (c : Char) : Bool := c.isDigit || (('a' ≤ c) && (c ≤ 'f'))

/-- Regex `\w` (ASCII model). -/
def isWordChar (c : Char) : Bool := c.isAlphanum || c = '_'

/-- Match a literal at the head of the input; return the rest on success. -/
def dropLit : List Char → List Char → Option (List Char)
  | [], s => some s
  | _, [] => none
  | p :: ps, c :: cs => if c = p then dropLit ps cs else none

/-- Regex `\s+` followed by a literal that starts with a non-whitespace
character: at least one whitespace char, then the literal at the end of the
maximal whitespace run. Returns the rest after the literal. -/
def wsPlusLit (lit : List Char) (s : List Char) : Option (List Char) :=
  match s with
  | c :: _ => if isWs c then dropLit lit (s.dropWhile isWs) else none
  | [] => none

/-- Leftmost-first regex search: try the sub-matcher at every start position
from the left, first success wins. -/
def searchFirst (f : List Char → Option α) : List Char → Option α
  | [] => f []
  | c :: rest =>
    match f (c :: rest) with
    | some r => some r
    | none => searchFirst f rest

/-- Greedy `.*` before a sub-pattern: the rightmost start position at which
the sub-matcher succeeds wins. -/
def searchLast (f : List Char → Option α) : List Char → Option α
  | [] => f []
  | c :: rest =>
    match searchLast f rest with
    | some r => some r
    | none => f (c :: rest)

/-- Rust `str::find` for a literal substring: the rest of the string after
the first occurrence. -/
def afterFirstSubstr (pat : List Char) : List Char → Option (List Char)
  | [] => dropLit pat []
  | c :: rest =>
    match dropLit pat (c :: rest) with
    | some r => some r
    | none => afterFirstSubstr pat rest

/-- Regex `\s*(.+)` at the current position (content-level; `.` excludes the
newline).  Greedily skip whitespace; if something remains the capture runs to
the next newline; if the tail is pure whitespace, backtracking yields the last
non-newline character as a one-character capture (or no match at all). -/
def dotPlusCap (tail : List Char) : Option (List Char) :=
  let rest := tail.dropWhile isWs
  if rest.isEmpty then
    match (tail.filter (fun c => c ≠ '\n')).getLast? with
    | some c => some [c]
    | none => none
  else
    some (rest.takeWhile (fun c => c ≠ '\n'))

/-- Matcher for `id=<target>\s+sql=\s*(.+)` at one start position; returns
the group-1 capture. -/
def idSqlTargetAt (target : List Char) (s : List Char) : Option (List Char) :=
  (dropLit (('i' :: 'd' :: '=' :: []) ++ target) s).bind fun r1 =>
  (wsPlusLit ('s' :: 'q' :: 'l' :: '=' :: []) r1).bind fun r2 =>
  dotPlusCap r2

/-- Matcher for `id=<target>\s+params=(\[[^\n]+)` at one start position;
returns the capture and the rest of the input after the whole match. -/
def idParamsTargetAt (target : List Char) (s : List Char) :
    Option (List Char × List Char) :=
  (dropLit (('i' :: 'd' :: '=' :: []) ++ target) s).bind fun r1 =>
  (wsPlusLit ('p' :: 'a' :: 'r' :: 'a' :: 'm' :: 's' :: '=' :: []) r1).bind fun r2 =>
  match r2 with
  | c :: t =>
    if c = '[' then
      let u := t.takeWhile (fun x => x ≠ '\n')
      if u.isEmpty then none else some ('[' :: u, t.drop u.length)
    else none
  | [] => none

/-- Matcher for `id=([a-f0-9]+)\s+<marker>` at one start position (the static
`ID_SQL_REGEX` / `ID_PARAMS_REGEX`); returns the captured hex id. -/
def idAnyAt (marker : List Char) (s : List Char) : Option (List Char) :=
  (dropLit ('i' :: 'd' :: '=' :: []) s).bind fun r1 =>
  let hex := r1.takeWhile isHexLower
  if hex.isEmpty then none
  else (wsPlusLit marker (r1.dropWhile isHexLower)).map fun _ => hex

/-- Take exactly `n` decimal digits; return them and the rest. -/
def takeDigits : Nat → List Char → Option (List Char × List Char)
  | 0, s => some ([], s)
  | _ + 1, [] => none
  | n + 1, c :: cs =>
    if c.isDigit then (takeDigits n cs).map (fun p => (c :: p.1, p.2)) else none

/-- Expect one literal character. -/
def expectC (c : Char) : List Char → Option (List Char)
  | [] => none
  | x :: xs => if x = c then some xs else none

/-- Anchored matcher for `^(\d{4}/\d{2}/\d{2}\s+\d{2}:\d{2}:\d{2})`
(`TIMESTAMP_REGEX`); returns the capture and the rest. -/
def timestampCapR (s : List Char) : Option (List Char × List Char) :=
  (takeDigits 4 s).bind fun p1 =>
  (expectC '/' p1.2).bind fun r2 =>
  (takeDigits 2 r2).bind fun p2 =>
  (expectC '/' p2.2).bind fun r4 =>
  (takeDigits 2 r4).bind fun p3 =>
  (match p3.2 with
   | c :: _ =>
     if isWs c then some (p3.2.takeWhile isWs, p3.2.dropWhile isWs) else none
   | [] => none).bind fun pw =>
  (takeDigits 2 pw.2).bind fun p4 =>
  (expectC ':' p4.2).bind fun r8 =>
  (takeDigits 2 r8).bind fun p5 =>
  (expectC ':' p5.2).bind fun r10 =>
  (takeDigits 2 r10).map fun (p6 : List Char × List Char) =>
  (p1.1 ++ ['/'] ++ p2.1 ++ ['/'] ++ p3.1 ++ pw.1 ++ p4.1 ++ [':'] ++ p5.1
    ++ [':'] ++ p6.1, p6.2)

/-- `TIMESTAMP_REGEX.captures(line)` (anchored): the captured timestamp. -/
def timestampCaptureLine (line : String) : Option String :=
  (timestampCapR line.data).map fun p => String.mk p.1

/-- Matcher for the full correlated-line pattern
`^(ts),\w+,([^,]+),.*id=<target>\s+sql=\s*(.+)`; returns the captures
(timestamp, attribution, sql). -/
def fullLineCapture (target : List Char) (line : List Char) :
    Option (List Char × List Char × List Char) :=
  (timestampCapR line).bind fun pts =>
  (expectC ',' pts.2).bind fun r2 =>
  (let run := r2.takeWhile isWordChar
   if run.isEmpty then none else expectC ',' (r2.dropWhile isWordChar)).bind fun r3 =>
  (let run := r3.takeWhile (fun c => c ≠ ',')
   if run.isEmpty then none
   else (expectC ',' (r3.dropWhile (fun c => c ≠ ','))).map fun r => (run, r)).bind
    fun pattr =>
  (searchLast (idSqlTargetAt target) pattr.2).map fun sql =>
  (pts.1, pattr.1, sql)

/-- Rust `str::trim` on a character list. -/
def trimChars (l : List Char) : List Char :=
  ((l.dropWhile isWs).reverse.dropWhile isWs).reverse

/-- Rust `str::trim`. -/
def rustTrim (s : String) : String := String.mk (trimChars s.data)

/-- Rust `str::trim_end`. -/
def rustTrimEnd (s : String) : String :=
  String.mk ((s.data.reverse.dropWhile isWs).reverse)

/-- Split a character list at newline characters (`≥ 1` piece). -/
def splitNl : List Char → List (List Char)
  | [] => [[]]
  | c :: rest =>
    if c = '\n' then [] :: splitNl rest
    else
      match splitNl rest with
      | p :: ps => (c :: p) :: ps
      | [] => [[c]]

/-- Rust `BufRead::split(b'\n')` over decoded content: pieces between
newlines, with no trailing empty piece after a final newline, and no piece at
all for empty content.  Used by the line-streaming reader
(`read_file_lines`). -/
def rustSplitB (content : String) : List String :=
  if content = "" then []
  else
    let parts := (splitNl content.data).map String.mk
    if content.data.getLast? = some '\n' then parts.dropLast else parts

/-- Rust `str::lines`: like the byte split, but additionally stripping one
trailing carriage return from each line. -/
def rustStrLines (content : String) : List String :=
  (rustSplitB content).map fun l =>
    match l.data.getLast? with
    | some c => if c = '\r' then String.mk l.data.dropLast else l
    | none => l

/-- `PARAM_REGEX` (`\[([^\]]+)\]`) `captures_iter`: all non-overlapping
bracketed tokens in order (`parse_params_string`).  Fuel-driven recursion;
the fuel equals the input length, which every step consumes at least one
character of, so no match is ever cut off. -/
def parseParamsGo : Nat → List Char → List String
  | 0, _ => []
  | _, [] => []
  | fuel + 1, c :: rest =>
    if c = '[' then
      let run := rest.takeWhile (fun x => x ≠ ']')
      match rest.dropWhile (fun x => x ≠ ']') with
      | ']' :: after =>
        if run.isEmpty then parseParamsGo fuel rest
        else String.mk run :: parseParamsGo fuel after
      | _ => parseParamsGo fuel rest
    else parseParamsGo fuel rest

/-- `parse_params_string`: extract `[...]` tokens from a params run. -/
def parseParams (s : String) : List String := parseParamsGo s.data.length s.data

/-- Rust `splitn(3, ':')`: at most three pieces, the third taken verbatim. -/
def splitn3 (s : String) : List String :=
  let d := s.data
  let p1 := d.takeWhile (fun c => c ≠ ':')
  match d.dropWhile (fun c => c ≠ ':') with
  | [] => [String.mk p1]
  | _ :: r1 =>
    let p2 := r1.takeWhile (fun c => c ≠ ':')
    match r1.dropWhile (fun c => c ≠ ':') with
    | [] => [String.mk p1, String.mk p2]
    | _ :: r2 => [String.mk p1, String.mk p2, String.mk r2]

/-- ASCII model of Rust `str::to_lowercase`. -/
def rustToLower (s : String) : String := String.mk (s.data.map Char.toLower)

/-- ASCII model of Rust `str::to_uppercase`. -/
def rustToUpper (s : String) : String := String.mk (s.data.map Char.toUpper)

/-- All-digit string to its numeric value (`none` if empty or non-digit). -/
def digitsToNat? (l : List Char) : Option Nat :=
  if l ≠ [] ∧ l.all Char.isDigit then
    some (l.foldl (fun a c => a * 10 + (c.toNat - 48)) 0)
  else none

/-- Rust `str::parse::<i32>`: optional sign, ASCII digits, range-checked. -/
def parseI32 (s : String) : Option Int :=
  match s.data with
  | '+' :: rest =>
    (digitsToNat? rest).bind fun n =>
      if n ≤ 2147483647 then some (n : Int) else none
  | '-' :: rest =>
    (digitsToNat? rest).bind fun n =>
      if n ≤ 2147483648 then some (-(n : Int)) else none
  | l =>
    (digitsToNat? l).bind fun n =>
      if n ≤ 2147483647 then some (n : Int) else none

/-- The quote escaping of `replace_placeholders`: each embedded single
quote is doubled (the Rust replace of one quote character by two). -/
def escapeQuotes (s : String) : String :=
  String.mk ((s.data.map (fun c => if c = sqC then [sqC, sqC] else [c])).flatten)

/-- ASCII model of the is-numeric-or-dot character test (the unknown-type
heuristic in `replace_placeholders`). -/
def isNumericHeur (c : Char) : Bool := c.isDigit || c = '.'

/-- The SQL literal produced for one parameter token in
`replace_placeholders`: the explicit NULL case followed by the
type-directed `match` (the type is already lower-cased by the caller). -/
def literal_for (ptype : String) (value : String) : String :=
  if value = "null" then "NULL"
  else if ptype = "string" ∨ ptype = "timestamp" ∨ ptype = "date" then
    String.mk [sqC] ++ escapeQuotes value ++ String.mk [sqC]
  else if ptype = "boolean" then rustToUpper value
  else if ptype = "bigdecimal" ∨ ptype = "number" ∨ ptype = "int" ∨
      ptype = "long" ∨ ptype = "float" ∨ ptype = "double" then value
  else if value.data.all isNumericHeur then value
  else String.mk [sqC] ++ escapeQuotes value ++ String.mk [sqC]

/-- The position → literal map building loop of `replace_placeholders`.
The `HashMap` is modelled as an association list consed at the front, so the
first hit of `List.lookup` is the most recent insert (last write wins). -/
def buildValuesByPos : List String → List (Int × String) →
    Except String (List (Int × String))
  | [], m => .ok m
  | p :: rest, m =>
    match splitn3 p with
    | [t, pos, v] =>
      match parseI32 pos with
      | none => .error "Invalid parameter index"
      | some n => buildValuesByPos rest ((n, literal_for (rustToLower t) v) :: m)
    | _ => buildValuesByPos rest m

/-- The `?`-replacement loop of `replace_placeholders`: each literal `?`
consumes the next synthetic position starting from 1. -/
def fillGo (m : List (Int × String)) : List Char → Int → Except String String
  | [], _ => .ok ""
  | c :: rest, idx =>
    if c = '?' then
      match m.lookup idx with
      | some v => (fillGo m rest (idx + 1)).map (fun t => v ++ t)
      | none => .error ("Missing value for position " ++ toString idx)
    else (fillGo m rest idx).map (fun t => String.mk [c] ++ t)

/-- `replace_placeholders` from `sql_formatter.rs`. -/
def replace_placeholders (query : String) (params : List String) :
    Except String String :=
  match buildValuesByPos params [] with
  | .error e => .error e
  | .ok m => fillGo m query.data 1

/-- One keyword pass of `format_sql`: non-overlapping replacement of the
pattern found in the upper-cased text, rebuilt from the original text
(`match_indices` plus slice copying).  Pattern and original have equal
length position-wise, so a parallel walk of the upper-cased and original
character lists is exact.  Fuel-driven; fuel = input length suffices. -/
def replaceUpperGo (pat repl : List Char) : Nat → List Char → List Char → List Char
  | 0, _, o => o
  | _ + 1, [], o => o
  | fuel + 1, u, o =>
    if (dropLit pat u).isSome then
      repl ++ replaceUpperGo pat repl fuel (u.drop pat.length) (o.drop pat.length)
    else
      match u, o with
      | _ :: u2, oc :: o2 => oc :: replaceUpperGo pat repl fuel u2 o2
      | _, _ => o

/-- `format_sql` from `sql_formatter.rs`: line breaks before keywords. -/
def format_sql (sql : String) : String :=
  if sql = "" then "Not found"
  else
    let step := fun (formatted : String) (keyword : String) =>
      let pat := (" " ++ keyword ++ " ").data
      let repl := ("\n" ++ keyword ++ " ").data
      String.mk (replaceUpperGo pat repl formatted.data.length
        (formatted.data.map Char.toUpper) formatted.data)
    rustTrim (["SELECT", "FROM", "WHERE", "AND", "OR", "ORDER BY", "GROUP BY"].foldl
      step sql)

/-- `format_params` from `sql_formatter.rs`. -/
def format_params (params : List String) : String :=
  if params = [] then "Not found"
  else
    String.join (params.map fun p =>
      match splitn3 p with
      | [t, i, v] => "  [" ++ i ++ "] " ++ t ++ ": " ++ v ++ "\n"
      | _ => "  " ++ p ++ "\n")

/-- `QueryResult` from `log_parser.rs` (`Default` = all fields empty). -/
structure QueryResult where
  id : String
  sql : String
  params : List String
deriving DecidableEq

/-- `Execution` from `log_parser.rs` (`execution_index` is `i32`). -/
structure Execution where
  id : String
  timestamp : String
  dao_file : String
  sql : String
  filled_sql : String
  params : List String
  execution_index : Int
deriving DecidableEq

/-- `IdInfo` from `log_parser.rs`. -/
structure IdInfo where
  id : String
  has_sql : Bool
  params_count : Int
deriving DecidableEq

/-- `QueryGroup` from `query_processor.rs` (UI flags included, serde-skipped). -/
structure QueryGroup where
  template_sql : String
  formatted_template_sql : String
  executions : List Execution
  is_expanded : Bool
  is_template_expanded : Bool
deriving DecidableEq

/-- `find_dao_class_name`: first DAO capture in the bounded window of up to
49 lines after the SQL line, else "Unknown".  The vendor marker regex is the
pluggable per-line capture `daoC`. -/
def find_dao_class_name (daoC : String → Option String) (lines : List String)
    (i : Nat) : String :=
  let searchEnd := min lines.length (i + 50)
  match (List.range' (i + 1) (searchEnd - (i + 1))).findSome?
      (fun j => daoC (lines.getD j "")) with
  | some d => d
  | none => "Unknown"

/-- Loop state of `parse_log_file_advanced` (src/src variant). -/
structure AdvState where
  current_sql : String
  current_timestamp : String
  current_dao : String
  execution_count : Int
  executions : List Execution

/-- One iteration of the `parse_log_file_advanced` line loop (src/src):
try the full correlated-line pattern, then the simple sql pattern (with
timestamp from the same or previous line); a hit updates the current
template state and skips the params check (`continue`); otherwise a params
match with a known template appends an `Execution`. -/
def advStep (daoC : String → Option String) (target : String)
    (lines : List String) (st : AdvState) (p : Nat × String) : AdvState :=
  let i := p.1
  let line := p.2
  match fullLineCapture target.data line.data with
  | some (ts, _attr, sql) =>
    { st with current_sql := String.mk sql, current_timestamp := String.mk ts,
              current_dao := find_dao_class_name daoC lines i }
  | none =>
    match searchFirst (idSqlTargetAt target.data) line.data with
    | some sql =>
      let ts :=
        match timestampCaptureLine line with
        | some t => t
        | none =>
          if i > 0 then
            match timestampCaptureLine (lines.getD (i - 1) "") with
            | some t => t
            | none => ""
          else ""
      { st with current_sql := String.mk sql, current_timestamp := ts,
                current_dao := find_dao_class_name daoC lines i }
    | none =>
      match searchFirst (idParamsTargetAt target.data) line.data with
      | some pcap =>
        if st.current_sql ≠ "" then
          let params := parseParams (String.mk pcap.1)
          let ts :=
            match timestampCaptureLine line with
            | some t => t
            | none => st.current_timestamp
          let filled :=
            match replace_placeholders st.current_sql params with
            | .ok f => f
            | .error _ => st.current_sql
          { st with
            execution_count := st.execution_count + 1,
            executions := st.executions ++
              [⟨target, ts, st.current_dao, st.current_sql, filled, params,
                st.execution_count + 1⟩] }
        else st
      | none => st

/-- `parse_log_file_advanced` from src/src `log_parser.rs`: whole-file read,
line loop, then the no-params fallback execution. -/
def parse_log_file_advanced (daoC : String → Option String) (target : String)
    (file : Option String) : List Execution :=
  match file with
  | none => []
  | some content =>
    if content = "" then []
    else
      let lines := rustStrLines content
      let st := lines.enum.foldl (advStep daoC target lines) ⟨"", "", "", 0, []⟩
      if st.executions = [] ∧ st.current_sql ≠ "" then
        [⟨target, st.current_timestamp, st.current_dao, st.current_sql,
          st.current_sql, [], 1⟩]
      else st.executions

/-- The sql-event content of one line as used by both `get_last_query`
variants: `ID_SQL_REGEX` captures the id, the text after the first `sql=` is
trimmed, and an empty extraction is ignored. -/
def lineSqlEventS (line : String) : Option (String × String) :=
  match searchFirst (idAnyAt ('s' :: 'q' :: 'l' :: '=' :: [])) line.data with
  | some hex =>
    match afterFirstSubstr ('s' :: 'q' :: 'l' :: '=' :: []) line.data with
    | some tail =>
      let sql := rustTrim (String.mk tail)
      if sql ≠ "" then some (String.mk hex, sql) else none
    | none => none
  | none => none

/-- One iteration of the src/src streaming `get_last_query` loop: a line
matching `ID_SQL_REGEX` may reset id/sql and clears params — a nonempty
trimmed extraction after the first `sql=` is exactly `lineSqlEventS` — and
then skips the params check (`continue`); otherwise, once an id is known, a
params match for the same id replaces the tracked params. -/
def streamStep (st : QueryResult) (line : String) : QueryResult :=
  if (searchFirst (idAnyAt ('s' :: 'q' :: 'l' :: '=' :: [])) line.data).isSome then
    match lineSqlEventS line with
    | some e => ⟨e.1, e.2, []⟩
    | none => st
  else if st.id ≠ "" then
    match searchFirst
        (idAnyAt ('p' :: 'a' :: 'r' :: 'a' :: 'm' :: 's' :: '=' :: []))
        line.data with
    | some hex2 =>
      if String.mk hex2 = st.id then
        match afterFirstSubstr
            ('p' :: 'a' :: 'r' :: 'a' :: 'm' :: 's' :: '=' :: []) line.data with
        | some tail => { st with params := parseParams (String.mk tail) }
        | none => st
      else st
    | none => st
  else st

/-- `get_last_query` from src/src `log_parser.rs` (streaming variant over
`read_file_lines`). -/
def stream_get_last_query (file : Option String) : QueryResult :=
  match file with
  | none => ⟨"", "", []⟩
  | some content => (rustSplitB content).foldl streamStep ⟨"", "", []⟩

/-- The sql-event content of one line in the src-tauri `get_last_query`
(same as the streaming one, but lines that trim to empty are skipped). -/
def lineSqlEventT (line : String) : Option (String × String) :=
  if rustTrim line = "" then none else lineSqlEventS line

/-- One iteration of the src-tauri `get_last_query` sql scan. -/
def tauriStep (st : String × String) (line : String) : String × String :=
  match lineSqlEventT line with
  | some e => e
  | none => st

/-- `captures_iter` of `id=<target>\s+params=(\[[^\n]+)` over whole content:
all captures in order, resuming after each match.  Fuel-driven; each match
consumes at least one character, so fuel = input length never cuts off. -/
def paramsCapturesGo (target : List Char) : Nat → List Char → List String
  | 0, _ => []
  | _, [] => []
  | fuel + 1, c :: rest =>
    match idParamsTargetAt target (c :: rest) with
    | some pcap => String.mk pcap.1 :: paramsCapturesGo target fuel pcap.2
    | none => paramsCapturesGo target fuel rest

/-- All params captures for one id over whole content. -/
def allParamsCaptures (target : List Char) (s : List Char) : List String :=
  paramsCapturesGo target s.length s

/-- `get_last_query` from src-tauri `log_parser.rs` (whole-file variant):
trim trailing whitespace, scan lines for the last nonempty sql event, then
regex the whole trimmed content for the last params match of that id. -/
def tauri_get_last_query (file : Option String) : QueryResult :=
  match file with
  | none => ⟨"", "", []⟩
  | some content =>
    if content = "" then ⟨"", "", []⟩
    else
      let trimmed := rustTrimEnd content
      if trimmed = "" then ⟨"", "", []⟩
      else
        let lines := rustStrLines trimmed
        if lines = [] then ⟨"", "", []⟩
        else
          let p := lines.foldl tauriStep ("", "")
          if p.1 = "" ∨ p.2 = "" then ⟨"", "", []⟩
          else
            ⟨p.1, p.2,
              ((allParamsCaptures p.1.data trimmed.data).getLast?.map
                parseParams).getD []⟩

/-- `params_count` increment of `get_all_ids`: bump the first enrolled id
that matches, leave the rest unchanged. -/
def incFirst : List IdInfo → String → List IdInfo
  | [], _ => []
  | info :: rest, id =>
    if info.id = id then
      { info with params_count := info.params_count + 1 } :: rest
    else info :: incFirst rest id

/-- One iteration of the `get_all_ids` loop (src/src): a sql event enrolls a
new id (the `seen_ids` set is exactly the enrolled ids), a params event bumps
the count of an already-enrolled id only. -/
def get_all_ids_step (ids : List IdInfo) (line : String) : List IdInfo :=
  let ids2 :=
    match searchFirst (idAnyAt ('s' :: 'q' :: 'l' :: '=' :: [])) line.data with
    | some hex =>
      let id := String.mk hex
      if ids.any (fun info => info.id = id) then ids else ids ++ [⟨id, true, 0⟩]
    | none => ids
  match searchFirst
      (idAnyAt ('p' :: 'a' :: 'r' :: 'a' :: 'm' :: 's' :: '=' :: [])) line.data with
  | some hex => incFirst ids2 (String.mk hex)
  | none => ids2

/-- `get_all_ids` from src/src `log_parser.rs`. -/
def get_all_ids (file : Option String) : List IdInfo :=
  match file with
  | none => []
  | some content => (rustSplitB content).foldl get_all_ids_step []

/-- The line loop of src/src `parse_log_file` with its found-flags and early
break once both sql and params are found. -/
def plfGo (target : String) : List String → Bool → Bool → QueryResult → QueryResult
  | [], _, _, res => res
  | line :: rest, fs, fp, res =>
    let s1 : QueryResult × Bool :=
      if fs then (res, fs)
      else
        match searchFirst (idSqlTargetAt target.data) line.data with
        | some cap => ({ res with sql := rustTrim (String.mk cap) }, true)
        | none => (res, false)
    let s2 : QueryResult × Bool :=
      if fp then (s1.1, fp)
      else
        match searchFirst (idParamsTargetAt target.data) line.data with
        | some pcap => ({ s1.1 with params := parseParams (String.mk pcap.1) }, true)
        | none => (s1.1, false)
    if s1.2 ∧ s2.2 then s2.1 else plfGo target rest s1.2 s2.2 s2.1

/-- `parse_log_file` from src/src `log_parser.rs`: first sql match and first
params match for the target id. -/
def src_parse_log_file (target : String) (file : Option String) : QueryResult :=
  match file with
  | none => ⟨target, "", []⟩
  | some content => plfGo target (rustSplitB content) false false ⟨target, "", []⟩

/-- The grouping loop of `process_query` (src/src `query_processor.rs`):
append the execution to the first group with the same template, else open a
new group at the end. -/
def addToGroups : List QueryGroup → Execution → List QueryGroup
  | [], e => [⟨e.sql, format_sql e.sql, [e], false, false⟩]
  | g :: gs, e =>
    if g.template_sql = e.sql then
      { g with executions := g.executions ++ [e] } :: gs
    else g :: addToGroups gs e

/-- `groupByTemplate`: the grouping step of `process_query` extracted over an
arbitrary execution list. -/
def groupByTemplate (execs : List Execution) : List QueryGroup :=
  execs.foldl addToGroups []

/-- `decode_bytes` from `utils/encoding.rs`.  The `encoding_rs` label lookup
and the decoders themselves are external library code, abstracted as the
parameters `for_label` (label resolution, `none` for an unknown or invalid
label) and `utf8` (the UTF-8 decoder); the fallback logic
`Encoding::for_label(..).unwrap_or(UTF_8)` is the translated source. -/
def decode_bytes (for_label : String → Option (List UInt8 → String))
    (utf8 : List UInt8 → String) (data : List UInt8) (label : String) : String :=
  ((for_label label).getD utf8) data

/-- The sql capture a line contributes in `parse_log_file_advanced` (the full
correlated pattern group 3, else the simple pattern group 1).  Used to
state which template an execution carries. -/
def advSqlText (target : String) (line : String) : Option String :=
  match fullLineCapture target.data line.data with
  | some (_, _, sql) => some (String.mk sql)
  | none => (searchFirst (idSqlTargetAt target.data) line.data).map String.mk

/-- Whether a line matches the params pattern for the target id. -/
def lineParamsHit (target : String) (line : String) : Bool :=
  (searchFirst (idParamsTargetAt target.data) line.data).isSome

/-- Reference scan for the templates carried by the executions of
`parse_log_file_advanced`: thread the most recently seen sql event as the
current template; each params line with a known template emits it.  This
follows the amended last-template-wins reading. -/
def advScanSpecGo (target : String) (cur : String) : List String → List String
  | [] => []
  | l :: ls =>
    match advSqlText target l with
    | some s => advScanSpecGo target s ls
    | none =>
      if lineParamsHit target l ∧ cur ≠ "" then
        cur :: advScanSpecGo target cur ls
      else advScanSpecGo target cur ls

/-- Reference value of `map (·.sql)` over the `parse_log_file_advanced` result:
the emitted templates, or the final template once if no params line emitted
anything (the fallback execution). -/
def advTemplatesSpec (target : String) (lines : List String) : List String :=
  let es := advScanSpecGo target "" lines
  if es = [] then
    match (lines.filterMap (advSqlText target)).getLast? with
    | some s => [s]
    | none => []
  else es

/-- Reference value for the src-tauri `get_last_query`: the sql event at the
greatest line position of the trimmed file, paired with the last params
event for that id anywhere in the trimmed content. -/
def tauriLastSpec (file : Option String) : QueryResult :=
  match file with
  | none => ⟨"", "", []⟩
  | some content =>
    let trimmed := rustTrimEnd content
    let lines := rustStrLines trimmed
    match (lines.filterMap lineSqlEventT).getLast? with
    | none => ⟨"", "", []⟩
    | some e =>
      ⟨e.1, e.2,
        ((allParamsCaptures e.1.data trimmed.data).getLast?.map parseParams).getD []⟩

/-- First synthetic `?` position with no entry in the position map (the spec
of `replace_placeholders` failure, used by the amended C8). -/
def firstUnresolved (m : List (Int × String)) : List Char → Int → Option Int
  | [], _ => none
  | c :: rest, idx =>
    if c = '?' then
      match m.lookup idx with
      | some _ => firstUnresolved m rest (idx + 1)
      | none => some idx
    else firstUnresolved m rest idx

/-- First-seen deduplication excluding an initial seen set (used to state the
first-seen template order of `groupByTemplate`). -/
def nubSeen (seen : List String) : List String → List String
  | [] => []
  | x :: xs => if x ∈ seen then nubSeen seen xs else x :: nubSeen (x :: seen) xs

/-- The group that `groupByTemplate` produces for template `t` over input `l`
(reference form). -/
def mkGroupOf (l : List Execution) (t : String) : QueryGroup :=
  ⟨t, format_sql t, l.filter (fun e => e.sql = t), false, false⟩

/-- Extension of an existing group by the matching executions of `l`
(reference form for the generalized grouping lemma). -/
def extGroup (l : List Execution) (g : QueryGroup) : QueryGroup :=
  { g with executions :=
      g.executions ++ l.filter (fun e => e.sql = g.template_sql) }

/-- The map-building loop hits the position-parse error of any three-part
token with an unparseable POSITION, regardless of the other tokens. -/
theorem buildValues_error (params : List String) (m : List (Int × String))
    (t a b c : String) (ht : t ∈ params) (hs : splitn3 t = [a, b, c])
    (hp : parseI32 b = none) :
    buildValuesByPos params m = Except.error "Invalid parameter index" := by
  induction params generalizing m with
  | nil => cases ht
  | cons p rest ih =>
    rw [buildValuesByPos]
    rcases List.mem_cons.mp ht with h | h
    · subst h
      rw [hs]
      simp [hp]
    · split
      · split
        · rfl
        · exact ih _ h
      · exact ih m h

/-- A token that does not split into three parts is skipped by the
map-building loop. -/
theorem buildValues_skip (params : List String) (m : List (Int × String))
    (t : String) (hs : (splitn3 t).length ≠ 3) :
    buildValuesByPos (t :: params) m = buildValuesByPos params m := by
  rw [buildValuesByPos]
  split
  · next x y z heq => rw [heq] at hs; simp at hs
  · rfl

/-- C2: the claim says a token whose POSITION fails integer parsing is
silently dropped; on the code it is not: `replace_placeholders` returns the
"Invalid parameter index" error, which differs from the result on the input
with the token removed. -/
theorem spec_c2_counterexample :
    replace_placeholders "x" ["Int:abc:42"] =
        Except.error "Invalid parameter index" ∧
      replace_placeholders "x" [] = Except.ok "x" := by
  constructor <;> rfl

/-- C2 (amended): substitute silently drops only tokens that do not split
into three TYPE:POSITION:VALUE parts; a three-part token whose POSITION
fails i32 parsing instead makes substitute fail with the error
"Invalid parameter index", for every sql string and token list. -/
theorem spec_c2_theorem :
    (∀ (query t : String) (params : List String), (splitn3 t).length ≠ 3 →
        replace_placeholders query (t :: params) =
          replace_placeholders query params) ∧
      ∀ (query : String) (params : List String) (t a b c : String),
        t ∈ params → splitn3 t = [a, b, c] → parseI32 b = none →
          replace_placeholders query params =
            Except.error "Invalid parameter index" := by
  constructor
  · intro query t params hlen
    unfold replace_placeholders
    rw [buildValues_skip params [] t hlen]
  · intro query params t a b c ht hs hp
    unfold replace_placeholders
    rw [buildValues_error params [] t a b c ht hs hp]

/-- C2 witness: the two amended behaviors at concrete inputs. -/
theorem spec_c2_witness :
    replace_placeholders "y" ("ab" :: ["Int:1:2"]) =
        replace_placeholders "y" ["Int:1:2"] ∧
      replace_placeholders "y" ["Long:zz:1"] =
        Except.error "Invalid parameter index" :=
  ⟨spec_c2_theorem.1 "y" "ab" ["Int:1:2"] (by decide),
   spec_c2_theorem.2 "y" ["Long:zz:1"] "Long:zz:1" "Long" "zz" "1"
     (by decide) (by decide) (by decide)⟩

/-- C7: literal formatting by declared type — value exactly "null" yields
NULL for every type; string/timestamp/date values are single-quoted with
embedded single quotes doubled; boolean values are upper-cased; the numeric
family is emitted verbatim; and the end-to-end example from the claim. -/
theorem spec_c7_theorem :
    (∀ ty : String, literal_for ty "null" = "NULL") ∧
      (∀ v : String, v ≠ "null" →
        literal_for "string" v = String.mk [sqC] ++ escapeQuotes v ++ String.mk [sqC] ∧
          literal_for "timestamp" v =
            String.mk [sqC] ++ escapeQuotes v ++ String.mk [sqC] ∧
          literal_for "date" v =
            String.mk [sqC] ++ escapeQuotes v ++ String.mk [sqC]) ∧
      (∀ v : String, v ≠ "null" → literal_for "boolean" v = rustToUpper v) ∧
      (∀ v : String, v ≠ "null" →
        literal_for "bigdecimal" v = v ∧ literal_for "number" v = v ∧
          literal_for "int" v = v ∧ literal_for "long" v = v ∧
          literal_for "float" v = v ∧ literal_for "double" v = v) ∧
      replace_placeholders "SELECT * FROM t WHERE id = ? AND name = ?"
          ["Int:1:42", "String:2:O" ++ String.mk [sqC] ++ "Brien"] =
        Except.ok ("SELECT * FROM t WHERE id = 42 AND name = " ++
          String.mk [sqC] ++ "O" ++ String.mk [sqC, sqC] ++ "Brien" ++
          String.mk [sqC]) := by
  refine ⟨fun ty => by rw [literal_for]; simp, fun v hv => ?_, fun v hv => ?_,
    fun v hv => ?_, by rfl⟩
  · refine ⟨?_, ?_, ?_⟩ <;> · rw [literal_for]; simp [hv]
  · rw [literal_for]; simp [hv]
  · refine ⟨?_, ?_, ?_, ?_, ?_, ?_⟩ <;> · rw [literal_for]; simp [hv]

/-- C7 witness: the typed-formatting clauses instantiated at concrete
values. -/
theorem spec_c7_witness :
    literal_for "date" "2024-01-01" =
        String.mk [sqC] ++ escapeQuotes "2024-01-01" ++ String.mk [sqC] ∧
      literal_for "boolean" "true" = rustToUpper "true" ∧
      literal_for "long" "12" = "12" ∧
      literal_for "unknown" "null" = "NULL" :=
  ⟨(spec_c7_theorem.2.1 "2024-01-01" (by decide)).2.2,
   spec_c7_theorem.2.2.1 "true" (by decide),
   (spec_c7_theorem.2.2.2.1 "12" (by decide)).2.2.2.1,
   spec_c7_theorem.1 "unknown"⟩

/-- The replacement loop fails at the first synthetic `?` position missing
from the map, and the error names that position. -/
theorem fillGo_err (m : List (Int × String)) (l : List Char) (idx p : Int)
    (h : firstUnresolved m l idx = some p) :
    fillGo m l idx = Except.error ("Missing value for position " ++ toString p) := by
  induction l generalizing idx with
  | nil => simp [firstUnresolved] at h
  | cons c rest ih =>
    by_cases hc : c = '?'
    · subst hc
      rcases hl : m.lookup idx with _ | v
      · simp [firstUnresolved, hl] at h
        subst h
        simp [fillGo, hl]
      · simp only [firstUnresolved, hl, if_pos rfl] at h
        simp [fillGo, hl, ih (idx + 1) h, Except.map]
    · simp only [firstUnresolved, if_neg hc] at h
      simp [fillGo, hc, ih idx h, Except.map]

/-- The replacement loop succeeds when every synthetic `?` position has a
map entry. -/
theorem fillGo_ok (m : List (Int × String)) (l : List Char) (idx : Int)
    (h : firstUnresolved m l idx = none) :
    ∃ out, fillGo m l idx = Except.ok out := by
  induction l generalizing idx with
  | nil => exact ⟨"", rfl⟩
  | cons c rest ih =>
    by_cases hc : c = '?'
    · subst hc
      rcases hl : m.lookup idx with _ | v
      · simp [firstUnresolved, hl] at h
      · simp only [firstUnresolved, hl, if_pos rfl] at h
        obtain ⟨out, hout⟩ := ih (idx + 1) h
        exact ⟨v ++ out, by simp [fillGo, hl, hout, Except.map]⟩
    · simp only [firstUnresolved, if_neg hc] at h
      obtain ⟨out, hout⟩ := ih idx h
      exact ⟨String.mk [c] ++ out, by simp [fillGo, hc, hout, Except.map]⟩

/-- C8: the claim says substitute fails exactly on an unresolved `?`; on the
code it also fails on a query containing no `?` at all, when the POSITION
of a token does not parse. -/
theorem spec_c8_counterexample :
    replace_placeholders "SELECT 1" ["Int:x:5"] =
        Except.error "Invalid parameter index" ∧
      ('?' ∈ "SELECT 1".data) = False := by
  constructor
  · rfl
  · decide

/-- C8 (amended): when the position map builds successfully (every token
three-part with parsable POSITION, or dropped as malformed), substitute
fails exactly when a literal `?` has a synthetic position with no map entry,
and the error names the first such position; plus the two-placeholder
example failing at position 2. -/
theorem spec_c8_theorem :
    (∀ (query : String) (params : List String) (m : List (Int × String)),
        buildValuesByPos params [] = Except.ok m →
          match firstUnresolved m query.data 1 with
          | some p => replace_placeholders query params =
              Except.error ("Missing value for position " ++ toString p)
          | none => ∃ out, replace_placeholders query params = Except.ok out) ∧
      replace_placeholders "SELECT * FROM t WHERE a = ? AND b = ?" ["Int:1:1"] =
        Except.error "Missing value for position 2" := by
  constructor
  · intro query params m hm
    rcases hfu : firstUnresolved m query.data 1 with _ | p
    · show ∃ out, replace_placeholders query params = Except.ok out
      obtain ⟨out, hout⟩ := fillGo_ok m query.data 1 hfu
      exact ⟨out, by rw [replace_placeholders, hm]; exact hout⟩
    · show replace_placeholders query params =
        Except.error ("Missing value for position " ++ toString p)
      rw [replace_placeholders, hm]
      exact fillGo_err m query.data 1 p hfu
  · rfl

/-- C8 witness: the success and failure characterization applied at a
concrete query and token list. -/
theorem spec_c8_witness :
    replace_placeholders "a = ?" ["Int:2:5"] =
      Except.error ("Missing value for position " ++ toString (1 : Int)) := by
  have h := spec_c8_theorem.1 "a = ?" ["Int:2:5"] [((2 : Int), "5")] (by rfl)
  simpa using h

/-- C10: the display formatters return the sentinel "Not found" on empty
input, and a query whose text is literally "Not found" formats to the same
string, making the two indistinguishable. -/
theorem spec_c10_theorem :
    format_sql "" = "Not found" ∧ format_params [] = "Not found" ∧
      format_sql "Not found" = "Not found" :=
  ⟨rfl, rfl, by rfl⟩

/-- C9: every Scanner entry point is total on missing/unreadable files
(modelled `none`) and on empty files, returning the empty or not-found
result; and the decoder never fails — an unknown or invalid encoding label
(one the label resolver does not know) falls back to the UTF-8 decoder. -/
theorem spec_c9_theorem :
    (∀ (for_label : String → Option (List UInt8 → String))
        (utf8 : List UInt8 → String) (data : List UInt8) (label : String),
        for_label label = none → decode_bytes for_label utf8 data label = utf8 data) ∧
      (∀ t : String, src_parse_log_file t none = ⟨t, "", []⟩ ∧
        src_parse_log_file t (some "") = ⟨t, "", []⟩) ∧
      (∀ (daoC : String → Option String) (t : String),
        parse_log_file_advanced daoC t none = [] ∧
          parse_log_file_advanced daoC t (some "") = []) ∧
      (get_all_ids none = [] ∧ get_all_ids (some "") = []) ∧
      (stream_get_last_query none = ⟨"", "", []⟩ ∧
        stream_get_last_query (some "") = ⟨"", "", []⟩) ∧
      (tauri_get_last_query none = ⟨"", "", []⟩ ∧
        tauri_get_last_query (some "") = ⟨"", "", []⟩) := by
  refine ⟨fun fl u d lab h => ?_, fun t => ⟨rfl, ?_⟩, fun daoC t => ⟨rfl, ?_⟩,
    ⟨rfl, ?_⟩, ⟨rfl, ?_⟩, ⟨rfl, rfl⟩⟩
  · simp [decode_bytes, h]
  · rfl
  · rfl
  · rfl
  · rfl

/-- C9 witness: the decoder fallback at a concrete unknown label. -/
theorem spec_c9_witness :
    decode_bytes (fun _ => none) (fun _ => "ok") [] "INVALID_LABEL" = "ok" :=
  spec_c9_theorem.1 (fun _ => none) (fun _ => "ok") [] "INVALID_LABEL" rfl

/-- One advanced-scan step preserves the counter/index invariant: the
counter equals the number of emitted executions and the indices are
1, 2, ..., N in order. -/
theorem advStep_index_inv (daoC : String → Option String) (target : String)
    (lines : List String) (st : AdvState) (p : Nat × String)
    (h1 : st.execution_count = (st.executions.length : Int))
    (h2 : st.executions.map (·.execution_index)
        = (List.range st.executions.length).map (fun k => (k : Int) + 1)) :
    (advStep daoC target lines st p).execution_count
        = ((advStep daoC target lines st p).executions.length : Int) ∧
      (advStep daoC target lines st p).executions.map (·.execution_index)
        = (List.range (advStep daoC target lines st p).executions.length).map
            (fun k => (k : Int) + 1) := by
  rcases hf : fullLineCapture target.data p.2.data with _ | ⟨ts, attr, sql⟩
  · rcases hs : searchFirst (idSqlTargetAt target.data) p.2.data with _ | sql
    · rcases hp : searchFirst (idParamsTargetAt target.data) p.2.data with _ | pcap
      · simp only [advStep, hf, hs, hp]
        exact ⟨h1, h2⟩
      · by_cases hcur : st.current_sql = ""
        · simp only [advStep, hf, hs, hp, hcur, ne_eq, not_true_eq_false, if_neg,
            ite_false, not_not]
          simp [hcur]
          exact ⟨h1, h2⟩
        · simp only [advStep, hf, hs, hp]
          rw [if_pos hcur]
          constructor
          · simp only [List.length_append, List.length_cons, List.length_nil]
            rw [h1]
            push_cast
            ring
          · simp only [List.map_append, List.length_append, List.length_cons,
              List.length_nil, List.map_cons, List.map_nil, h2, h1]
            rw [List.range_succ]
            simp
    · simp only [advStep, hf, hs]
      exact ⟨h1, h2⟩
  · simp only [advStep, hf]
    exact ⟨h1, h2⟩

/-- The whole advanced-scan line loop preserves the counter/index
invariant. -/
theorem advFold_index_inv (daoC : String → Option String) (target : String)
    (lines : List String) (l : List (Nat × String)) :
    ∀ st : AdvState, st.execution_count = (st.executions.length : Int) →
      st.executions.map (·.execution_index)
        = (List.range st.executions.length).map (fun k => (k : Int) + 1) →
      (l.foldl (advStep daoC target lines) st).executions.map (·.execution_index)
        = (List.range (l.foldl (advStep daoC target lines) st).executions.length).map
            (fun k => (k : Int) + 1) := by
  induction l with
  | nil => exact fun st _ h2 => h2
  | cons p rest ih =>
    intro st h1 h2
    have h := advStep_index_inv daoC target lines st p h1 h2
    exact ih _ h.1 h.2

/-- C5: for every file and id, the execution_index values of
findAllExecutionsById are exactly 1, 2, ..., N in list order. -/
theorem spec_c5_theorem (daoC : String → Option String) (target : String)
    (file : Option String) :
    (parse_log_file_advanced daoC target file).map (·.execution_index)
      = (List.range (parse_log_file_advanced daoC target file).length).map
          (fun k => (k : Int) + 1) := by
  rcases file with _ | content
  · rfl
  · simp only [parse_log_file_advanced]
    split
    · rfl
    · split
      · rfl
      · exact advFold_index_inv daoC target (rustStrLines content)
          (rustStrLines content).enum ⟨"", "", "", 0, []⟩ rfl rfl

/-- Templates after one grouping step: unchanged when the execution matches
an existing group, extended at the end otherwise. -/
theorem addToGroups_templates (acc : List QueryGroup) (e : Execution) :
    (addToGroups acc e).map (·.template_sql) =
      if e.sql ∈ acc.map (·.template_sql) then acc.map (·.template_sql)
      else acc.map (·.template_sql) ++ [e.sql] := by
  induction acc with
  | nil => simp [addToGroups]
  | cons g gs ih =>
    by_cases hg : g.template_sql = e.sql
    · simp [addToGroups, hg]
    · simp only [addToGroups, if_neg hg, List.map_cons, ih]
      have hiff : (e.sql ∈ g.template_sql :: gs.map (·.template_sql)) ↔
          e.sql ∈ gs.map (·.template_sql) := by
        constructor
        · intro h
          rcases List.mem_cons.mp h with h | h
          · exact absurd h.symm hg
          · exact h
        · exact List.mem_cons_of_mem _
      by_cases hm : e.sql ∈ gs.map (·.template_sql) <;>
        simp [hm, hiff]

/-- A first-seen template opens a new group at the end of the list. -/
theorem addToGroups_not_mem (acc : List QueryGroup) (e : Execution)
    (h : e.sql ∉ acc.map (·.template_sql)) :
    addToGroups acc e = acc ++ [⟨e.sql, format_sql e.sql, [e], false, false⟩] := by
  induction acc with
  | nil => rfl
  | cons g gs ih =>
    simp only [List.map_cons, List.mem_cons] at h
    push_neg at h
    have hg : ¬ g.template_sql = e.sql := fun hh => h.1 hh.symm
    rw [addToGroups, if_neg hg, ih h.2]
    rfl

/-- Extending by an empty execution list changes nothing. -/
theorem extGroup_nil (g : QueryGroup) : extGroup [] g = g := by
  cases g
  simp [extGroup]

/-- Extending by a non-matching execution is the same as dropping it. -/
theorem extGroup_skip (l : List Execution) (e : Execution) (g : QueryGroup)
    (h : g.template_sql ≠ e.sql) : extGroup (e :: l) g = extGroup l g := by
  have he : ¬ (e.sql = g.template_sql) := fun hh => h hh.symm
  simp [extGroup, List.filter_cons, he]

/-- A reference group for a template unseen in its head is unchanged by
dropping that head. -/
theorem mkGroupOf_skip (l : List Execution) (e : Execution) (t : String)
    (h : t ≠ e.sql) : mkGroupOf (e :: l) t = mkGroupOf l t := by
  have he : ¬ (e.sql = t) := fun hh => h hh.symm
  simp [mkGroupOf, List.filter_cons, he]

/-- Appending an execution to the unique matching group commutes with the
reference extension. -/
theorem addToGroups_mem_ext (acc : List QueryGroup) (e : Execution)
    (l2 : List Execution) (hm : e.sql ∈ acc.map (·.template_sql))
    (hnd : (acc.map (·.template_sql)).Nodup) :
    (addToGroups acc e).map (extGroup l2) = acc.map (extGroup (e :: l2)) := by
  induction acc with
  | nil => cases hm
  | cons g gs ih =>
    simp only [List.map_cons, List.nodup_cons] at hnd
    by_cases hg : g.template_sql = e.sql
    · simp only [addToGroups, if_pos hg, List.map_cons]
      rw [List.cons_eq_cons]
      constructor
      · have he : (e.sql = g.template_sql) := hg.symm
        simp [extGroup, List.filter_cons, he]
      · apply List.map_congr_left
        intro a ha
        refine (extGroup_skip l2 e a ?_).symm
        intro hh
        exact hnd.1 (by rw [hg, ← hh]; exact List.mem_map_of_mem _ ha)
    · simp only [List.map_cons, List.mem_cons] at hm
      rcases hm with hm | hm
      · exact absurd hm.symm hg
      · simp only [addToGroups, if_neg hg, List.map_cons, ih hm hnd.2]
        congr 1
        exact (extGroup_skip l2 e g hg).symm

/-- First-seen deduplication depends only on membership of the seen set. -/
theorem nubSeen_congr (xs : List String) :
    ∀ s1 s2 : List String, (∀ a, a ∈ s1 ↔ a ∈ s2) → nubSeen s1 xs = nubSeen s2 xs := by
  induction xs with
  | nil => intro _ _ _; rfl
  | cons x xs ih =>
    intro s1 s2 h
    simp only [nubSeen]
    by_cases hx : x ∈ s1
    · rw [if_pos hx, if_pos ((h x).mp hx)]
      exact ih s1 s2 h
    · rw [if_neg hx, if_neg (fun hh => hx ((h x).mpr hh))]
      rw [ih (x :: s1) (x :: s2) (fun a => by simp [h a])]

/-- Deduplicated elements are not in the seen set. -/
theorem nubSeen_not_mem_seen (xs : List String) :
    ∀ (seen : List String) (t : String), t ∈ nubSeen seen xs → t ∉ seen := by
  induction xs with
  | nil => intro _ _ h; cases h
  | cons x xs ih =>
    intro seen t h
    simp only [nubSeen] at h
    by_cases hx : x ∈ seen
    · rw [if_pos hx] at h
      exact ih seen t h
    · rw [if_neg hx] at h
      rcases List.mem_cons.mp h with h | h
      · subst h; exact hx
      · exact fun hs => ih (x :: seen) t h (List.mem_cons_of_mem x hs)

/-- The grouping loop over any prior group list with distinct templates:
existing groups are extended by their matching executions in order, and the
remaining first-seen templates open new groups at the end. -/
theorem grouping_fold_char (l : List Execution) :
    ∀ acc : List QueryGroup, (acc.map (·.template_sql)).Nodup →
      l.foldl addToGroups acc =
        acc.map (extGroup l) ++
          (nubSeen (acc.map (·.template_sql)) (l.map (·.sql))).map (mkGroupOf l) := by
  induction l with
  | nil =>
    intro acc _
    simp only [List.foldl_nil, List.map_nil, nubSeen, List.append_nil]
    have h5 : ∀ g ∈ acc, extGroup [] g = id g := fun g _ => extGroup_nil g
    rw [List.map_congr_left h5, List.map_id]
  | cons e l2 ih =>
    intro acc hnd
    rw [List.foldl_cons]
    have hnd2 : ((addToGroups acc e).map (·.template_sql)).Nodup := by
      rw [addToGroups_templates]
      by_cases hm : e.sql ∈ acc.map (·.template_sql)
      · rw [if_pos hm]; exact hnd
      · rw [if_neg hm]
        exact List.nodup_append.mpr ⟨hnd, List.nodup_singleton _,
          by simpa [List.disjoint_singleton] using hm⟩
    rw [ih (addToGroups acc e) hnd2]
    by_cases hm : e.sql ∈ acc.map (·.template_sql)
    · rw [addToGroups_mem_ext acc e l2 hm hnd, addToGroups_templates, if_pos hm]
      congr 1
      have hseen : nubSeen (acc.map (·.template_sql)) ((e :: l2).map (·.sql)) =
          nubSeen (acc.map (·.template_sql)) (l2.map (·.sql)) := by
        simp only [List.map_cons, nubSeen, if_pos hm]
      rw [hseen]
      apply List.map_congr_left
      intro t ht
      refine (mkGroupOf_skip l2 e t ?_).symm
      intro hh
      exact nubSeen_not_mem_seen _ _ _ ht (hh ▸ hm)
    · rw [addToGroups_not_mem acc e hm]
      simp only [List.map_append, List.map_cons, List.map_nil]
      have h1 : acc.map (extGroup l2) = acc.map (extGroup (e :: l2)) := by
        apply List.map_congr_left
        intro g hg
        refine (extGroup_skip l2 e g ?_).symm
        intro hh
        exact hm (hh ▸ List.mem_map_of_mem _ hg)
      have h2 : extGroup l2 ⟨e.sql, format_sql e.sql, [e], false, false⟩ =
          mkGroupOf (e :: l2) e.sql := by
        simp [extGroup, mkGroupOf, List.filter_cons]
      have h3 : nubSeen (acc.map (·.template_sql) ++ [e.sql]) (l2.map (·.sql)) =
          nubSeen (e.sql :: acc.map (·.template_sql)) (l2.map (·.sql)) := by
        apply nubSeen_congr
        intro a
        simp [List.mem_append, List.mem_cons, or_comm]
      have h4 : (nubSeen (e.sql :: acc.map (·.template_sql)) (l2.map (·.sql))).map
            (mkGroupOf l2) =
          (nubSeen (e.sql :: acc.map (·.template_sql)) (l2.map (·.sql))).map
            (mkGroupOf (e :: l2)) := by
        apply List.map_congr_left
        intro t ht
        refine (mkGroupOf_skip l2 e t ?_).symm
        intro hh
        exact nubSeen_not_mem_seen _ _ _ ht (hh ▸ List.mem_cons_self e.sql _)
      rw [h1, h2, h3, h4]
      have hseen2 : nubSeen (acc.map (·.template_sql)) (e.sql :: l2.map (·.sql)) =
          e.sql :: nubSeen (e.sql :: acc.map (·.template_sql)) (l2.map (·.sql)) := by
        simp only [nubSeen, if_neg hm]
      rw [hseen2]
      simp

/-- C6: groupByTemplate is an exact stable partition under raw string
equality of sql: the group templates are the execution sqls deduplicated in
first-seen order, each group holds exactly the input executions with its
template (in input order, so each execution lands in exactly one group), and
every member has sql equal to the template of its group. -/
theorem spec_c6_theorem (execs : List Execution) :
    (groupByTemplate execs).map (·.template_sql) =
        nubSeen [] (execs.map (·.sql)) ∧
      (∀ g ∈ groupByTemplate execs,
        g.executions = execs.filter (fun e => e.sql = g.template_sql)) ∧
      (∀ g ∈ groupByTemplate execs, ∀ e ∈ g.executions, e.sql = g.template_sql) := by
  have hchar : groupByTemplate execs =
      (nubSeen [] (execs.map (·.sql))).map (mkGroupOf execs) := by
    have h := grouping_fold_char execs [] (by simp)
    simpa [groupByTemplate] using h
  refine ⟨?_, ?_, ?_⟩
  · rw [hchar, List.map_map]
    have hid : ((fun x : QueryGroup => x.template_sql) ∘ mkGroupOf execs) = id := rfl
    rw [hid, List.map_id]
  · intro g hg
    rw [hchar] at hg
    obtain ⟨t, _, rfl⟩ := List.mem_map.mp hg
    rfl
  · intro g hg e he
    rw [hchar] at hg
    obtain ⟨t, _, rfl⟩ := List.mem_map.mp hg
    simpa using (List.mem_filter.mp he).2

/-- getLast? of a cons, as a default-value equation. -/
theorem getLastD_cons (x : α) (xs : List α) (d : α) :
    ((x :: xs).getLast?).getD d = (xs.getLast?).getD x := by
  cases xs with
  | nil => rfl
  | cons y ys =>
    rw [List.getLast?_cons_cons]
    obtain ⟨a, ha⟩ := Option.isSome_iff_exists.mp
      (List.getLast?_isSome.mpr (List.cons_ne_nil y ys))
    rw [ha]
    rfl

/-- A keep-the-last-match fold computes the last hit of the line list. -/
theorem foldl_getD_eq (f : β → Option α) (l : List β) :
    ∀ d : α, l.foldl (fun acc b => (f b).getD acc) d =
      ((l.filterMap f).getLast?).getD d := by
  induction l with
  | nil => intro d; rfl
  | cons b rest ih =>
    intro d
    rw [List.foldl_cons, List.filterMap_cons]
    rcases hb : f b with _ | a
    · simp only [Option.getD_none]
      exact ih d
    · simp only [Option.getD_some]
      rw [getLastD_cons]
      exact ih a

/-- The last element of a list is a member. -/
theorem getLastQ_mem : ∀ (l : List α) (a : α), l.getLast? = some a → a ∈ l := by
  intro l
  induction l with
  | nil => intro a h; cases h
  | cons x xs ih =>
    intro a h
    cases xs with
    | nil =>
      cases h
      exact List.mem_singleton_self x
    | cons y ys =>
      rw [List.getLast?_cons_cons] at h
      exact List.mem_cons_of_mem x (ih a h)

/-- The id and sql tracked by the streaming step evolve by keep-or-replace
with the line sql event; the params branch never touches them. -/
theorem streamStep_proj (st : QueryResult) (line : String) :
    ((streamStep st line).id, (streamStep st line).sql) =
      (lineSqlEventS line).getD (st.id, st.sql) := by
  unfold streamStep
  by_cases h : (searchFirst (idAnyAt ('s' :: 'q' :: 'l' :: '=' :: [])) line.data).isSome
  · rw [if_pos h]
    rcases he : lineSqlEventS line with _ | e
    · rfl
    · rfl
  · rw [if_neg h]
    have he : lineSqlEventS line = none := by
      unfold lineSqlEventS
      rcases hs : searchFirst (idAnyAt ('s' :: 'q' :: 'l' :: '=' :: [])) line.data
          with _ | hex
      · rfl
      · rw [hs] at h
        simp at h
    rw [he]
    repeat' split <;> try rfl

/-- The id and sql tracked by the whole streaming loop are the last sql
event of the lines. -/
theorem stream_fold_proj (lines : List String) :
    ∀ st : QueryResult,
      (((lines.foldl streamStep st).id), ((lines.foldl streamStep st).sql)) =
        ((lines.filterMap lineSqlEventS).getLast?).getD (st.id, st.sql) := by
  induction lines with
  | nil => intro st; rfl
  | cons l rest ih =>
    intro st
    rw [List.foldl_cons, List.filterMap_cons]
    have hp := streamStep_proj st l
    rcases hb : lineSqlEventS l with _ | e <;> rw [hb] at hp
    · simp only [Option.getD_none]
      rw [ih (streamStep st l), hp]
      rfl
    · simp only [Option.getD_some] at hp
      rw [getLastD_cons, ih (streamStep st l), hp]

/-- The src-tauri sql-scan step is keep-or-replace with the line event. -/
theorem tauriStep_getD (st : String × String) (line : String) :
    tauriStep st line = (lineSqlEventT line).getD st := by
  unfold tauriStep
  rcases h : lineSqlEventT line with _ | e <;> rfl

/-- The src-tauri sql scan computes the last sql event of the lines. -/
theorem tauri_foldl (lines : List String) (st : String × String) :
    lines.foldl tauriStep st = ((lines.filterMap lineSqlEventT).getLast?).getD st := by
  have hfun : tauriStep =
      fun (acc : String × String) (b : String) => (lineSqlEventT b).getD acc :=
    funext fun acc => funext fun b => tauriStep_getD acc b
  rw [hfun]
  exact foldl_getD_eq _ _ _

/-- A captured hex id run is nonempty. -/
theorem idAnyAt_ne_nil (marker s : List Char) (hex : List Char)
    (h : idAnyAt marker s = some hex) : hex ≠ [] := by
  unfold idAnyAt at h
  rcases hd : dropLit ('i' :: 'd' :: '=' :: []) s with _ | r1 <;> rw [hd] at h
  · cases h
  · simp only [Option.some_bind] at h
    by_cases hhex : (r1.takeWhile isHexLower).isEmpty
    · rw [if_pos hhex] at h
      cases h
    · rw [if_neg hhex] at h
      rcases hw : wsPlusLit marker (r1.dropWhile isHexLower) with _ | r2 <;>
        rw [hw] at h
      · cases h
      · simp only [Option.map_some'] at h
        cases h
        simpa [List.isEmpty_iff] using hhex

/-- Inversion for the leftmost search: a hit comes from some start
position. -/
theorem searchFirst_some (f : List Char → Option α) :
    ∀ (l : List Char) (a : α), searchFirst f l = some a → ∃ s, f s = some a := by
  intro l
  induction l with
  | nil => exact fun a h => ⟨[], h⟩
  | cons c rest ih =>
    intro a h
    rw [searchFirst] at h
    rcases hf : f (c :: rest) with _ | r <;> rw [hf] at h
    · exact ih a h
    · cases h
      exact ⟨c :: rest, hf⟩

/-- Inversion for the rightmost search: a hit comes from some start
position. -/
theorem searchLast_some (f : List Char → Option α) :
    ∀ (l : List Char) (a : α), searchLast f l = some a → ∃ s, f s = some a := by
  intro l
  induction l with
  | nil => exact fun a h => ⟨[], h⟩
  | cons c rest ih =>
    intro a h
    rw [searchLast] at h
    rcases hf : searchLast f rest with _ | r <;> rw [hf] at h
    · exact ⟨c :: rest, h⟩
    · cases h
      exact ih _ hf

/-- A line sql event carries a nonempty id and a nonempty sql. -/
theorem lineSqlEventS_nonempty (line : String) (e : String × String)
    (h : lineSqlEventS line = some e) : e.1 ≠ "" ∧ e.2 ≠ "" := by
  unfold lineSqlEventS at h
  rcases h1 : searchFirst (idAnyAt ('s' :: 'q' :: 'l' :: '=' :: [])) line.data
      with _ | hex <;> rw [h1] at h
  · cases h
  · rcases h2 : afterFirstSubstr ('s' :: 'q' :: 'l' :: '=' :: []) line.data
        with _ | tail <;> rw [h2] at h
    · cases h
    · replace h : (if rustTrim (String.mk tail) ≠ "" then
          some (String.mk hex, rustTrim (String.mk tail)) else none) = some e := h
      by_cases h3 : rustTrim (String.mk tail) = ""
      · rw [if_neg (fun hh => hh h3)] at h
        cases h
      · rw [if_pos h3] at h
        cases h
        refine ⟨?_, h3⟩
        obtain ⟨s, hs⟩ := searchFirst_some _ line.data hex h1
        have hne := idAnyAt_ne_nil _ s hex hs
        intro hmk
        exact hne (by simpa using congrArg String.data hmk)

/-- On an all-whitespace character list the id patterns never match. -/
theorem idAny_ws_none (marker : List Char) :
    ∀ l : List Char, (∀ c ∈ l, isWs c = true) → searchFirst (idAnyAt marker) l = none := by
  intro l
  induction l with
  | nil => intro _; rfl
  | cons c rest ih =>
    intro hws
    have hci : ¬ (c = 'i') := by
      intro hh
      have hcw := hws c (List.mem_cons_self c rest)
      rw [hh] at hcw
      simp [isWs, Char.isWhitespace] at hcw
    have hf : idAnyAt marker (c :: rest) = none := by
      simp [idAnyAt, dropLit, hci]
    rw [searchFirst, hf]
    exact ih fun x hx => hws x (List.mem_cons_of_mem _ hx)

/-- A list whose Rust trim is empty is all whitespace. -/
theorem trimChars_all_ws (l : List Char) (h : trimChars l = []) :
    ∀ c ∈ l, isWs c = true := by
  unfold trimChars at h
  rw [List.reverse_eq_nil_iff, List.dropWhile_eq_nil_iff] at h
  intro c hc
  have hsplit := List.takeWhile_append_dropWhile (p := isWs) (l := l)
  rw [← hsplit] at hc
  rcases List.mem_append.mp hc with h1 | h2
  · exact List.mem_takeWhile_imp h1
  · exact h _ (List.mem_reverse.mpr h2)

/-- The skip-blank-lines guard of the src-tauri scan is redundant: a line
that trims to empty cannot match the sql pattern, so both per-line event
extractors agree everywhere. -/
theorem lineSqlEventT_eq (line : String) : lineSqlEventT line = lineSqlEventS line := by
  unfold lineSqlEventT
  by_cases h : rustTrim line = ""
  · rw [if_pos h]
    have hnil : trimChars line.data = [] := by
      simpa using congrArg String.data h
    have hws := trimChars_all_ws line.data hnil
    unfold lineSqlEventS
    rw [idAny_ws_none _ line.data hws]
  · rw [if_neg h]

/-- The src-tauri `get_last_query` equals its reference form: the sql event
at the greatest line position of the trimmed content, paired with the last
params capture for that id over the whole trimmed content. -/
theorem tauri_glq_char (file : Option String) :
    tauri_get_last_query file = tauriLastSpec file := by
  rcases file with _ | content
  · rfl
  · by_cases h0 : content = ""
    · subst h0
      rfl
    · simp only [tauri_get_last_query, tauriLastSpec]
      rw [if_neg h0]
      by_cases h1 : rustTrimEnd content = ""
      · rw [if_pos h1, h1]
        rfl
      · rw [if_neg h1]
        by_cases h2 : rustStrLines (rustTrimEnd content) = []
        · rw [if_pos h2, h2]
          rfl
        · rw [if_neg h2, tauri_foldl]
          rcases hE : ((rustStrLines (rustTrimEnd content)).filterMap
              lineSqlEventT).getLast? with _ | e
          · rfl
          · have he : e.1 ≠ "" ∧ e.2 ≠ "" := by
              obtain ⟨line, _, hline⟩ :=
                List.mem_filterMap.mp (getLastQ_mem _ e hE)
              rw [lineSqlEventT_eq] at hline
              exact lineSqlEventS_nonempty line e hline
            rw [if_neg (by simp [he.1, he.2])]
            rfl

set_option maxRecDepth 100000 in
/-- C3 (amended): the whole-file variant (src-tauri get_last_query) returns,
for every file, the SQL event at the greatest line position in the trimmed
file paired with the last params event for that id anywhere in the trimmed
content; the streaming variant instead keeps only params seen after the last
SQL event.  On the one-sql-then-three-params example both variants return
params ["Int:1:3"]. -/
theorem spec_c3_theorem :
    (∀ file : Option String, tauri_get_last_query file = tauriLastSpec file) ∧
      tauri_get_last_query (some ("id=abc123 sql=SELECT * FROM users WHERE id = ?\nid=abc123 params=[Int:1:1]\nid=abc123 params=[Int:1:2]\nid=abc123 params=[Int:1:3]")) =
        ⟨"abc123", "SELECT * FROM users WHERE id = ?", ["Int:1:3"]⟩ ∧
      stream_get_last_query (some ("id=abc123 sql=SELECT * FROM users WHERE id = ?\nid=abc123 params=[Int:1:1]\nid=abc123 params=[Int:1:2]\nid=abc123 params=[Int:1:3]")) =
        ⟨"abc123", "SELECT * FROM users WHERE id = ?", ["Int:1:3"]⟩ :=
  ⟨tauri_glq_char, by decide, by decide⟩

set_option maxRecDepth 100000 in
/-- C3: the claim fails on the streaming variant: with a params event before
a later SQL event for the same id, the last params event for the id is
[Int:1:1], but the streaming get_last_query returns empty params. -/
theorem spec_c3_counterexample :
    (stream_get_last_query (some "id=ab sql=S\nid=ab params=[Int:1:1]\nid=ab sql=T")) =
        ⟨"ab", "T", []⟩ ∧
      ((allParamsCaptures "ab".data
          (rustTrimEnd "id=ab sql=S\nid=ab params=[Int:1:1]\nid=ab sql=T").data).getLast?.map
        parseParams) = some ["Int:1:1"] := by
  constructor
  · decide
  · decide

/-- A whitespace character is not a lowercase hex digit. -/
theorem ws_not_hex (c : Char) (h : isWs c = true) : isHexLower c = false := by
  simp [isWs, Char.isWhitespace] at h
  rcases h with ((h | h) | h) | h <;> subst h <;> decide

/-- The empty literal always matches and consumes nothing. -/
theorem dropLit_nil (s : List Char) : dropLit [] s = some s := by
  cases s <;> rfl

/-- Matching a whitespace-free literal is unaffected by an all-whitespace
suffix of the input. -/
theorem dropLit_ws_append (p : List Char) :
    ∀ (s w : List Char), (∀ c ∈ p, isWs c = false) → (∀ c ∈ w, isWs c = true) →
      dropLit p (s ++ w) = (dropLit p s).map (· ++ w) := by
  induction p with
  | nil => intro s w _ _; rw [dropLit_nil, dropLit_nil]; rfl
  | cons x ps ih =>
    intro s w hp hw
    cases s with
    | nil =>
      simp only [List.nil_append]
      cases w with
      | nil => rfl
      | cons c w' =>
        have hcx : ¬ (c = x) := by
          intro hh
          have h1 := hw c (List.mem_cons_self c w')
          have h2 := hp x (List.mem_cons_self x ps)
          rw [hh] at h1
          rw [h1] at h2
          cases h2
        simp [dropLit, hcx]
    | cons c s' =>
      by_cases hcx : c = x
      · simp only [List.cons_append, dropLit, if_pos hcx]
        exact ih s' w (fun a ha => hp a (List.mem_cons_of_mem _ ha)) hw
      · simp [dropLit, hcx]

/-- takeWhile ignores an appended suffix whose elements all fail the
predicate. -/
theorem takeWhile_append_not (q : Char → Bool) :
    ∀ (l w : List Char), (∀ c ∈ w, q c = false) →
      (l ++ w).takeWhile q = l.takeWhile q := by
  intro l
  induction l with
  | nil =>
    intro w hw
    cases w with
    | nil => rfl
    | cons c w' => simp [List.takeWhile_cons, hw c (List.mem_cons_self c w')]
  | cons c l' ih =>
    intro w hw
    by_cases hc : q c
    · simp [List.takeWhile_cons, hc, ih w hw]
    · simp [List.takeWhile_cons, hc]

/-- dropWhile pushes an appended suffix through when all its elements fail
the predicate. -/
theorem dropWhile_append_not (q : Char → Bool) :
    ∀ (l w : List Char), (∀ c ∈ w, q c = false) →
      (l ++ w).dropWhile q = l.dropWhile q ++ w := by
  intro l
  induction l with
  | nil =>
    intro w hw
    cases w with
    | nil => rfl
    | cons c w' => simp [List.dropWhile_cons, hw c (List.mem_cons_self c w')]
  | cons c l' ih =>
    intro w hw
    by_cases hc : q c
    · simp [List.dropWhile_cons, hc, ih w hw]
    · simp [List.dropWhile_cons, hc]

/-- Unfolding of the whitespace-then-literal matcher on a cons. -/
theorem wsPlusLit_cons (lit : List Char) (c : Char) (t : List Char) :
    wsPlusLit lit (c :: t) =
      if isWs c then dropLit lit (List.dropWhile isWs (c :: t)) else none := rfl

/-- The whitespace-then-literal matcher is unaffected by an all-whitespace
suffix of the input. -/
theorem wsPlusLit_ws_append (lit : List Char) (s w : List Char)
    (hlit : ∀ c ∈ lit, isWs c = false) (hne : lit ≠ [])
    (hw : ∀ c ∈ w, isWs c = true) :
    wsPlusLit lit (s ++ w) = (wsPlusLit lit s).map (· ++ w) := by
  cases lit with
  | nil => exact absurd rfl hne
  | cons x ps =>
    have hwnil : List.dropWhile isWs w = [] :=
      List.dropWhile_eq_nil_iff.mpr (fun a ha => hw a ha)
    cases s with
    | nil =>
      simp only [List.nil_append]
      cases w with
      | nil => rfl
      | cons c w' =>
        have h1 : isWs c = true := hw c (List.mem_cons_self c w')
        rw [wsPlusLit_cons, if_pos h1, hwnil]
        rfl
    | cons c s' =>
      rw [List.cons_append, wsPlusLit_cons, wsPlusLit_cons]
      by_cases hc : isWs c = true
      · rw [if_pos hc, if_pos hc,
          show c :: (s' ++ w) = (c :: s') ++ w from rfl, List.dropWhile_append]
        by_cases hemp : (List.dropWhile isWs (c :: s')).isEmpty
        · rw [if_pos hemp, hwnil, List.isEmpty_iff.mp hemp]
          rfl
        · rw [if_neg hemp]
          exact dropLit_ws_append (x :: ps) _ w hlit hw
      · rw [if_neg hc, if_neg hc]
        rfl

/-- Let-free unfolding of the id matcher. -/
theorem idAnyAt_eq (m s : List Char) :
    idAnyAt m s = (dropLit ('i' :: 'd' :: '=' :: []) s).bind fun r1 =>
      if (r1.takeWhile isHexLower).isEmpty then none
      else (wsPlusLit m (r1.dropWhile isHexLower)).map
        fun _ => r1.takeWhile isHexLower := rfl

/-- The id matcher at one position is unaffected by an all-whitespace
suffix of the input. -/
theorem idAnyAt_ws_append (m s w : List Char)
    (hm : ∀ c ∈ m, isWs c = false) (hmne : m ≠ [])
    (hw : ∀ c ∈ w, isWs c = true) :
    idAnyAt m (s ++ w) = idAnyAt m s := by
  have hwh : ∀ c ∈ w, isHexLower c = false := fun c hc => ws_not_hex c (hw c hc)
  rw [idAnyAt_eq, idAnyAt_eq,
    dropLit_ws_append ('i' :: 'd' :: '=' :: []) s w (by decide) hw]
  rcases hd : dropLit ('i' :: 'd' :: '=' :: []) s with _ | r1
  · rfl
  · simp only [Option.map_some', Option.some_bind]
    rw [takeWhile_append_not isHexLower r1 w hwh]
    by_cases hh : (r1.takeWhile isHexLower).isEmpty
    · rw [if_pos hh, if_pos hh]
    · rw [if_neg hh, if_neg hh,
        dropWhile_append_not isHexLower r1 w hwh,
        wsPlusLit_ws_append m (r1.dropWhile isHexLower) w hm hmne hw]
      rcases wsPlusLit m (r1.dropWhile isHexLower) with _ | r2 <;> rfl

/-- The leftmost id search is unaffected by an all-whitespace suffix. -/
theorem searchFirst_idAny_ws_append (m : List Char)
    (hm : ∀ c ∈ m, isWs c = false) (hmne : m ≠ []) :
    ∀ (l w : List Char), (∀ c ∈ w, isWs c = true) →
      searchFirst (idAnyAt m) (l ++ w) = searchFirst (idAnyAt m) l := by
  intro l
  induction l with
  | nil =>
    intro w hw
    rw [List.nil_append, idAny_ws_none m w hw]
    rfl
  | cons c rest ih =>
    intro w hw
    have hA : idAnyAt m (c :: (rest ++ w)) = idAnyAt m (c :: rest) :=
      idAnyAt_ws_append m (c :: rest) w hm hmne hw
    rw [List.cons_append, searchFirst, searchFirst, hA]
    rcases idAnyAt m (c :: rest) with _ | r
    · exact ih w hw
    · rfl

/-- A non-whitespace-leading literal has no occurrence inside all-whitespace
text. -/
theorem afterFirstSubstr_ws_none (x : Char) (ps : List Char)
    (hx : isWs x = false) :
    ∀ w : List Char, (∀ c ∈ w, isWs c = true) →
      afterFirstSubstr (x :: ps) w = none := by
  intro w
  induction w with
  | nil => intro _; rfl
  | cons c w' ih =>
    intro hw
    have hcx : ¬ (c = x) := by
      intro hh
      have h1 := hw c (List.mem_cons_self c w')
      rw [hh, hx] at h1
      cases h1
    show (match dropLit (x :: ps) (c :: w') with
      | some r => some r
      | none => afterFirstSubstr (x :: ps) w') = none
    rw [show dropLit (x :: ps) (c :: w') = none from by simp [dropLit, hcx]]
    exact ih (fun a ha => hw a (List.mem_cons_of_mem _ ha))

/-- The first-substring search pushes an all-whitespace suffix through when
the pattern is whitespace-free. -/
theorem afterFirstSubstr_ws_append (x : Char) (ps : List Char)
    (hp : ∀ c ∈ x :: ps, isWs c = false) :
    ∀ (l w : List Char), (∀ c ∈ w, isWs c = true) →
      afterFirstSubstr (x :: ps) (l ++ w) =
        (afterFirstSubstr (x :: ps) l).map (· ++ w) := by
  intro l
  induction l with
  | nil =>
    intro w hw
    rw [List.nil_append,
      afterFirstSubstr_ws_none x ps (hp x (List.mem_cons_self x ps)) w hw]
    rfl
  | cons c l' ih =>
    intro w hw
    show (match dropLit (x :: ps) ((c :: l') ++ w) with
      | some r => some r
      | none => afterFirstSubstr (x :: ps) (l' ++ w)) =
      (match dropLit (x :: ps) (c :: l') with
      | some r => some r
      | none => afterFirstSubstr (x :: ps) l').map (· ++ w)
    rw [dropLit_ws_append (x :: ps) (c :: l') w hp hw]
    rcases dropLit (x :: ps) (c :: l') with _ | r
    · exact ih w hw
    · rfl

/-- Rust trim absorbs an all-whitespace suffix. -/
theorem trimChars_ws_append (l w : List Char)
    (hw : ∀ c ∈ w, isWs c = true) :
    trimChars (l ++ w) = trimChars l := by
  have hwnil : List.dropWhile isWs w = [] :=
    List.dropWhile_eq_nil_iff.mpr (fun a ha => hw a ha)
  have hwrnil : List.dropWhile isWs w.reverse = [] :=
    List.dropWhile_eq_nil_iff.mpr (fun a ha => hw a (List.mem_reverse.mp ha))
  unfold trimChars
  rw [List.dropWhile_append]
  by_cases hemp : (List.dropWhile isWs l).isEmpty
  · rw [if_pos hemp, hwnil, List.isEmpty_iff.mp hemp]
  · rw [if_neg hemp, List.reverse_append, List.dropWhile_append, hwrnil]
    simp

/-- The per-line sql event is unaffected by an all-whitespace suffix of the
line. -/
theorem lineSqlEventS_ws_append (l w : List Char)
    (hw : ∀ c ∈ w, isWs c = true) :
    lineSqlEventS (String.mk (l ++ w)) = lineSqlEventS (String.mk l) := by
  unfold lineSqlEventS
  rw [show (String.mk (l ++ w)).data = l ++ w from rfl,
    show (String.mk l).data = l from rfl,
    searchFirst_idAny_ws_append ('s' :: 'q' :: 'l' :: '=' :: [])
      (by decide) (by decide) l w hw,
    afterFirstSubstr_ws_append 's' ('q' :: 'l' :: '=' :: []) (by decide) l w hw]
  rcases searchFirst (idAnyAt ('s' :: 'q' :: 'l' :: '=' :: [])) l with _ | hex
  · rfl
  · rcases afterFirstSubstr ('s' :: 'q' :: 'l' :: '=' :: []) l with _ | tail
    · rfl
    · have ht : rustTrim (String.mk (tail ++ w)) = rustTrim (String.mk tail) := by
        unfold rustTrim
        rw [show (String.mk (tail ++ w)).data = tail ++ w from rfl,
          show (String.mk tail).data = tail from rfl,
          trimChars_ws_append tail w hw]
      simp only [Option.map_some']
      rw [ht]

/-- An all-whitespace line has no sql event. -/
theorem lineSqlEventS_of_ws (line : String)
    (h : ∀ c ∈ line.data, isWs c = true) : lineSqlEventS line = none := by
  unfold lineSqlEventS
  rw [idAny_ws_none _ line.data h]

/-- The newline splitter never returns an empty part list. -/
theorem splitNl_ne_nil (d : List Char) : splitNl d ≠ [] := by
  induction d with
  | nil => exact fun h => by cases h
  | cons c rest ih =>
    show (if c = '\n' then [] :: splitNl rest else
      match splitNl rest with
      | p :: ps => (c :: p) :: ps
      | [] => (c :: []) :: []) ≠ []
    by_cases hc : c = '\n'
    · rw [if_pos hc]
      exact fun h => by cases h
    · rw [if_neg hc]
      rcases splitNl rest with _ | ⟨p, ps⟩
      · exact fun h => by cases h
      · exact fun h => by cases h

/-- Split at a leading newline. -/
theorem splitNl_cons_nl (d : List Char) :
    splitNl ('\n' :: d) = [] :: splitNl d := by
  show (if '\n' = '\n' then [] :: splitNl d else _) = [] :: splitNl d
  rw [if_pos rfl]

/-- Split at a leading non-newline character. -/
theorem splitNl_cons_ne (c : Char) (d : List Char) (hc : ¬ c = '\n') :
    splitNl (c :: d) = (splitNl d).modifyHead (fun p => c :: p) := by
  show (if c = '\n' then [] :: splitNl d else
    match splitNl d with
    | p :: ps => (c :: p) :: ps
    | [] => (c :: []) :: []) = _
  rw [if_neg hc]
  rcases h : splitNl d with _ | ⟨p, ps⟩
  · exact absurd h (splitNl_ne_nil d)
  · rfl

/-- modifyHead on a cons. -/
theorem modifyHead_cons (f : List Char → List Char) (a : List Char)
    (l : List (List Char)) : (a :: l).modifyHead f = f a :: l := rfl

/-- Prefixing the head with the empty list changes nothing. -/
theorem modifyHead_nilpre (l : List (List Char)) :
    l.modifyHead (fun p => [] ++ p) = l := by
  cases l <;> rfl

/-- Fusing a cons-prefix and an append-prefix on the head. -/
theorem modifyHead_append_cons (acc : List Char) (a : Char)
    (l : List (List Char)) :
    (l.modifyHead (fun p => a :: p)).modifyHead (fun p => acc ++ p) =
      l.modifyHead (fun p => (acc ++ (a :: [])) ++ p) := by
  cases l with
  | nil => rfl
  | cons q qs =>
    show (acc ++ (a :: q)) :: qs = ((acc ++ (a :: [])) ++ q) :: qs
    rw [List.append_assoc]
    rfl

/-- Splitting all-whitespace text yields all-whitespace parts. -/
theorem splitNl_mem_ws :
    ∀ (w : List Char), (∀ c ∈ w, isWs c = true) →
      ∀ p ∈ splitNl w, ∀ c ∈ p, isWs c = true := by
  intro w
  induction w with
  | nil =>
    intro _ p hp c hc
    have hp0 : p = [] := List.mem_singleton.mp hp
    subst hp0
    cases hc
  | cons a w' ih =>
    intro hw p hp c hc
    have hw' : ∀ x ∈ w', isWs x = true :=
      fun x hx => hw x (List.mem_cons_of_mem _ hx)
    by_cases ha : a = '\n'
    · subst ha
      rw [splitNl_cons_nl] at hp
      rcases List.mem_cons.mp hp with h1 | h1
      · subst h1
        cases hc
      · exact ih hw' p h1 c hc
    · rw [splitNl_cons_ne a w' ha] at hp
      rcases hsp : splitNl w' with _ | ⟨q, qs⟩
      · exact absurd hsp (splitNl_ne_nil w')
      · rw [hsp, modifyHead_cons] at hp
        rcases List.mem_cons.mp hp with h1 | h1
        · subst h1
          rcases List.mem_cons.mp hc with h2 | h2
          · rw [h2]
            exact hw a (List.mem_cons_self a w')
          · exact ih hw' q (by rw [hsp]; exact List.mem_cons_self q qs) c h2
        · exact ih hw' p (by rw [hsp]; exact List.mem_cons_of_mem _ h1) c hc

/-- Appending all-whitespace text does not change the sql events of the
split lines, for any pending head prefix. -/
theorem events_splitNl_ws (t : List Char) :
    ∀ (acc w : List Char), (∀ c ∈ w, isWs c = true) →
      List.filterMap lineSqlEventS
          (((splitNl (t ++ w)).modifyHead (fun p => acc ++ p)).map String.mk) =
        List.filterMap lineSqlEventS
          (((splitNl t).modifyHead (fun p => acc ++ p)).map String.mk) := by
  induction t with
  | nil =>
    intro acc w hw
    rw [List.nil_append]
    rcases hsp : splitNl w with _ | ⟨p, ps⟩
    · exact absurd hsp (splitNl_ne_nil w)
    · have hp0 : ∀ c ∈ p, isWs c = true := fun c hc =>
        splitNl_mem_ws w hw p (by rw [hsp]; exact List.mem_cons_self p ps) c hc
      have hps : ∀ q ∈ ps, ∀ c ∈ q, isWs c = true := fun q hq =>
        splitNl_mem_ws w hw q (by rw [hsp]; exact List.mem_cons_of_mem _ hq)
      rw [modifyHead_cons, show splitNl ([] : List Char) = [[]] from rfl,
        modifyHead_cons, List.map_cons, List.map_cons, List.map_nil,
        List.filterMap_cons, List.filterMap_cons, List.filterMap_nil]
      have hmapps : List.filterMap lineSqlEventS (ps.map String.mk) = [] := by
        rw [List.filterMap_map]
        refine List.filterMap_eq_nil_iff.mpr ?_
        intro q hq
        exact lineSqlEventS_of_ws (String.mk q) (hps q hq)
      have hhead : lineSqlEventS (String.mk (acc ++ p)) =
          lineSqlEventS (String.mk (acc ++ [])) := by
        rw [List.append_nil]
        exact lineSqlEventS_ws_append acc p hp0
      rw [hhead, hmapps]
  | cons a t' ih =>
    intro acc w hw
    by_cases ha : a = '\n'
    · subst ha
      rw [show ('\n' :: t') ++ w = '\n' :: (t' ++ w) from rfl,
        splitNl_cons_nl, splitNl_cons_nl, modifyHead_cons, modifyHead_cons,
        List.map_cons, List.map_cons, List.filterMap_cons, List.filterMap_cons]
      have htail := ih [] w hw
      rw [modifyHead_nilpre, modifyHead_nilpre] at htail
      rcases lineSqlEventS (String.mk (acc ++ [])) with _ | e
      · exact htail
      · exact congrArg (List.cons e) htail
    · rw [show (a :: t') ++ w = a :: (t' ++ w) from rfl,
        splitNl_cons_ne a (t' ++ w) ha, splitNl_cons_ne a t' ha,
        modifyHead_append_cons, modifyHead_append_cons]
      exact ih (acc ++ (a :: [])) w hw

/-- Splitting text ending in a newline adds a final empty part. -/
theorem splitNl_append_nl (Y : List Char) :
    splitNl (Y ++ ('\n' :: [])) = splitNl Y ++ [[]] := by
  induction Y with
  | nil =>
    rw [List.nil_append, splitNl_cons_nl]
    rfl
  | cons c Y' ih =>
    by_cases hc : c = '\n'
    · subst hc
      rw [show ('\n' :: Y') ++ ('\n' :: []) = '\n' :: (Y' ++ ('\n' :: [])) from rfl,
        splitNl_cons_nl, splitNl_cons_nl, ih]
      rfl
    · rw [show (c :: Y') ++ ('\n' :: []) = c :: (Y' ++ ('\n' :: [])) from rfl,
        splitNl_cons_ne c _ hc, splitNl_cons_ne c Y' hc, ih]
      rcases h : splitNl Y' with _ | ⟨p, ps⟩
      · exact absurd h (splitNl_ne_nil Y')
      · rfl

/-- Unfolding of the byte splitter on nonempty content. -/
theorem rustSplitB_eq (X : String) (h0 : ¬ X = "") :
    rustSplitB X = if X.data.getLast? = some '\n'
      then ((splitNl X.data).map String.mk).dropLast
      else (splitNl X.data).map String.mk := by
  unfold rustSplitB
  rw [if_neg h0]

/-- Dropping the empty part after a trailing newline does not change the
sql events. -/
theorem events_rustSplitB (X : String) :
    List.filterMap lineSqlEventS (rustSplitB X) =
      List.filterMap lineSqlEventS ((splitNl X.data).map String.mk) := by
  by_cases h0 : X = ""
  · subst h0
    rfl
  · rw [rustSplitB_eq X h0]
    by_cases h1 : X.data.getLast? = some '\n'
    · rw [if_pos h1]
      have hXne : X.data ≠ [] := by
        intro hh
        apply h0
        have h2 : String.mk X.data = String.mk [] := congrArg String.mk hh
        rwa [show String.mk X.data = X from rfl] at h2
      have h2 := List.getLast?_eq_getLast_of_ne_nil hXne
      rw [h1] at h2
      have hdecomp : X.data.dropLast ++ ('\n' :: []) = X.data := by
        rw [show ('\n' :: []) = (X.data.getLast hXne :: []) from by
          rw [← Option.some.inj h2]]
        exact List.dropLast_append_getLast hXne
      have hsplit : splitNl X.data = splitNl X.data.dropLast ++ [[]] := by
        conv_lhs => rw [← hdecomp]
        exact splitNl_append_nl _
      rw [hsplit]
      simp only [List.map_append, List.map_cons, List.map_nil,
        List.filterMap_append]
      rw [show (List.map String.mk (splitNl X.data.dropLast) ++
            [String.mk []]).dropLast =
          List.map String.mk (splitNl X.data.dropLast) from by
        rw [List.dropLast_concat]]
      rw [show List.filterMap lineSqlEventS [String.mk []] = [] from rfl,
        List.append_nil]
    · rw [if_neg h1]

/-- Stripping a trailing carriage return from each line does not change the
sql events. -/
theorem events_rustStrLines (X : String) :
    List.filterMap lineSqlEventS (rustStrLines X) =
      List.filterMap lineSqlEventS (rustSplitB X) := by
  unfold rustStrLines
  rw [List.filterMap_map]
  refine List.filterMap_congr (fun l _ => ?_)
  show lineSqlEventS (match l.data.getLast? with
    | some c => if c = '\r' then String.mk l.data.dropLast else l
    | none => l) = lineSqlEventS l
  rcases hg : l.data.getLast? with _ | c
  · rfl
  · show lineSqlEventS (if c = '\r' then String.mk l.data.dropLast else l) =
      lineSqlEventS l
    by_cases hc : c = '\r'
    · subst hc
      rw [if_pos rfl]
      have hne : l.data ≠ [] := by
        intro hh
        rw [hh] at hg
        cases hg
      have h2 := List.getLast?_eq_getLast_of_ne_nil hne
      rw [hg] at h2
      have hdec : l.data.dropLast ++ ('\r' :: []) = l.data := by
        rw [show ('\r' :: []) = (l.data.getLast hne :: []) from by
          rw [← Option.some.inj h2]]
        exact List.dropLast_append_getLast hne
      have h3 := lineSqlEventS_ws_append l.data.dropLast ('\r' :: []) (by decide)
      rw [hdec, show String.mk l.data = l from rfl] at h3
      exact h3.symm
    · rw [if_neg hc]

/-- The streaming reader over raw split lines and the whole-file reader over
trimmed str lines see exactly the same sql events, for every content. -/
theorem events_eq (content : String) :
    List.filterMap lineSqlEventS (rustSplitB content) =
      List.filterMap lineSqlEventT (rustStrLines (rustTrimEnd content)) := by
  rw [List.filterMap_congr
      (fun line _ => lineSqlEventT_eq line : ∀ line ∈ rustStrLines (rustTrimEnd content),
        lineSqlEventT line = lineSqlEventS line),
    events_rustStrLines (rustTrimEnd content),
    events_rustSplitB (rustTrimEnd content), events_rustSplitB content]
  have hW : ∀ c ∈ (content.data.reverse.takeWhile isWs).reverse, isWs c = true := by
    intro c hc
    exact List.mem_takeWhile_imp (List.mem_reverse.mp hc)
  have hdec : (rustTrimEnd content).data ++
      (content.data.reverse.takeWhile isWs).reverse = content.data := by
    show (content.data.reverse.dropWhile isWs).reverse ++
      (content.data.reverse.takeWhile isWs).reverse = content.data
    rw [← List.reverse_append, List.takeWhile_append_dropWhile,
      List.reverse_reverse]
  have hmain := events_splitNl_ws (rustTrimEnd content).data []
    (content.data.reverse.takeWhile isWs).reverse hW
  rw [modifyHead_nilpre, modifyHead_nilpre, hdec] at hmain
  exact hmain

/-- C4 (amended): the streaming and whole-file variants agree on the
returned id and sql for every input file; only the params may differ (the
counterexample), since the streaming variant discards params events that
precede a later SQL event. -/
theorem spec_c4_theorem (content : String) :
    (stream_get_last_query (some content)).id =
        (tauri_get_last_query (some content)).id ∧
      (stream_get_last_query (some content)).sql =
        (tauri_get_last_query (some content)).sql := by
  have hstream : ((stream_get_last_query (some content)).id,
      (stream_get_last_query (some content)).sql) =
      (((rustStrLines (rustTrimEnd content)).filterMap
        lineSqlEventT).getLast?).getD ("", "") := by
    show (((rustSplitB content).foldl streamStep ⟨"", "", []⟩).id,
        ((rustSplitB content).foldl streamStep ⟨"", "", []⟩).sql) = _
    rw [stream_fold_proj, events_eq]
  rw [tauri_glq_char (some content)]
  simp only [tauriLastSpec]
  rcases hE : (((rustStrLines (rustTrimEnd content)).filterMap
      lineSqlEventT).getLast?) with _ | e <;> rw [hE] at hstream
  · exact ⟨congrArg Prod.fst hstream, congrArg Prod.snd hstream⟩
  · exact ⟨congrArg Prod.fst hstream, congrArg Prod.snd hstream⟩

set_option maxRecDepth 100000 in
/-- C4: the two variants do not return identical QueryResult values on every
file: with a params event between two SQL events for one id, the params
components differ. -/
theorem spec_c4_counterexample :
    stream_get_last_query (some "id=ab sql=S\nid=ab params=[Int:1:7]\nid=ab sql=T") ≠
      tauri_get_last_query (some "id=ab sql=S\nid=ab params=[Int:1:7]\nid=ab sql=T") := by
  decide

/-- The `\s*(.+)` capture is nonempty. -/
theorem dotPlusCap_ne_nil (t : List Char) (c : List Char)
    (h : dotPlusCap t = some c) : c ≠ [] := by
  unfold dotPlusCap at h
  by_cases he : (t.dropWhile isWs).isEmpty
  · rw [if_pos he] at h
    rcases hl : (t.filter (fun c => c ≠ '\n')).getLast? with _ | x <;> rw [hl] at h
    · cases h
    · cases h
      simp
  · rw [if_neg he] at h
    cases h
    rcases hd : t.dropWhile isWs with _ | ⟨x, xs⟩
    · rw [hd] at he
      simp at he
    · have hx : isWs x = false := by
        have hh := List.head?_dropWhile_not isWs t
        rw [hd] at hh
        simpa using hh
      have hxn : x ≠ '\n' := by
        intro hc
        rw [hc] at hx
        simp [isWs, Char.isWhitespace] at hx
      simp [List.takeWhile_cons, hxn]

/-- The sql capture of the target pattern is nonempty. -/
theorem idSqlTargetAt_ne_nil (target s cap : List Char)
    (h : idSqlTargetAt target s = some cap) : cap ≠ [] := by
  unfold idSqlTargetAt at h
  rcases h1 : dropLit (('i' :: 'd' :: '=' :: []) ++ target) s with _ | r1 <;>
    rw [h1] at h
  · cases h
  · simp only [Option.some_bind] at h
    rcases h2 : wsPlusLit ('s' :: 'q' :: 'l' :: '=' :: []) r1 with _ | r2 <;>
      rw [h2] at h
    · cases h
    · simp only [Option.some_bind] at h
      exact dotPlusCap_ne_nil r2 cap h

/-- The full correlated-line capture inherits its sql group from the
rightmost target sql match. -/
theorem fullLineCapture_sql (target line : List Char)
    (ts attr sql : List Char)
    (h : fullLineCapture target line = some (ts, attr, sql)) :
    ∃ r, searchLast (idSqlTargetAt target) r = some sql := by
  unfold fullLineCapture at h
  rcases c1 : timestampCapR line with _ | pts <;> rw [c1] at h
  · cases h
  · simp only [Option.some_bind] at h
    rcases c2 : expectC ',' pts.2 with _ | r2 <;> rw [c2] at h
    · cases h
    · simp only [Option.some_bind] at h
      by_cases c3 : (r2.takeWhile isWordChar).isEmpty
      · rw [if_pos c3] at h
        cases h
      · rw [if_neg c3] at h
        rcases c4 : expectC ',' (r2.dropWhile isWordChar) with _ | r3 <;>
          rw [c4] at h
        · cases h
        · simp only [Option.some_bind] at h
          by_cases c5 : (r3.takeWhile (fun c => c ≠ ',')).isEmpty
          · rw [if_pos c5] at h
            cases h
          · rw [if_neg c5] at h
            rcases c6 : expectC ',' (r3.dropWhile (fun c => c ≠ ',')) with _ | r4 <;>
              rw [c6] at h
            · cases h
            · simp only [Option.map_some', Option.some_bind] at h
              rcases c7 : searchLast (idSqlTargetAt target) r4 with _ | cap <;>
                rw [c7] at h
              · cases h
              · simp only [Option.map_some'] at h
                injection h with h'
                injection h' with e1 h''
                injection h'' with e2 e3
                subst e3
                exact ⟨r4, c7⟩

/-- Templates captured by the advanced scan are nonempty strings. -/
theorem advSqlText_ne_empty (target line s : String)
    (h : advSqlText target line = some s) : s ≠ "" := by
  unfold advSqlText at h
  rcases hf : fullLineCapture target.data line.data with _ | ⟨ts, attr, sql⟩ <;>
    rw [hf] at h
  · rcases hs : searchFirst (idSqlTargetAt target.data) line.data with _ | cap <;>
      rw [hs] at h
    · cases h
    · cases h
      obtain ⟨s', hs'⟩ := searchFirst_some _ line.data cap hs
      have hne := idSqlTargetAt_ne_nil _ s' cap hs'
      intro hmk
      exact hne (by simpa using congrArg String.data hmk)
  · cases h
    obtain ⟨r, hr⟩ := fullLineCapture_sql target.data line.data ts attr sql hf
    obtain ⟨s', hs'⟩ := searchLast_some _ r sql hr
    have hne := idSqlTargetAt_ne_nil _ s' sql hs'
    intro hmk
    exact hne (by simpa using congrArg String.data hmk)

/-- Template/emission behavior of one advanced-scan step: a sql event
replaces the current template unconditionally; otherwise a params hit with a
known template emits the current template. -/
theorem advStep_proj (daoC : String → Option String) (target : String)
    (lines : List String) (st : AdvState) (p : Nat × String) :
    ((advStep daoC target lines st p).current_sql,
      (advStep daoC target lines st p).executions.map (·.sql)) =
      match advSqlText target p.2 with
      | some s => (s, st.executions.map (·.sql))
      | none =>
        if lineParamsHit target p.2 ∧ st.current_sql ≠ "" then
          (st.current_sql, st.executions.map (·.sql) ++ [st.current_sql])
        else (st.current_sql, st.executions.map (·.sql)) := by
  rcases hf : fullLineCapture target.data p.2.data with _ | ⟨ts, attr, sql⟩
  · rcases hs : searchFirst (idSqlTargetAt target.data) p.2.data with _ | sql
    · rcases hp : searchFirst (idParamsTargetAt target.data) p.2.data with _ | pcap
      · have hhit : lineParamsHit target p.2 = false := by
          simp [lineParamsHit, hp]
        simp [advStep, advSqlText, hf, hs, hp, hhit]
      · have hhit : lineParamsHit target p.2 = true := by
          simp [lineParamsHit, hp]
        by_cases hcur : st.current_sql = ""
        · simp [advStep, advSqlText, hf, hs, hp, hhit, hcur]
        · simp [advStep, advSqlText, hf, hs, hp, hhit, hcur]
    · simp [advStep, advSqlText, hf, hs]
  · simp [advStep, advSqlText, hf]

/-- The advanced-scan loop: the emitted templates are those of the
last-template-wins reference scan, and the final template is the last sql
event seen (or the inherited one). -/
theorem advFold_sql_char (daoC : String → Option String) (target : String)
    (lines : List String) (l : List (Nat × String)) :
    ∀ st : AdvState,
      (l.foldl (advStep daoC target lines) st).executions.map (·.sql)
          = st.executions.map (·.sql) ++
              advScanSpecGo target st.current_sql (l.map (·.2)) ∧
        (l.foldl (advStep daoC target lines) st).current_sql
          = (((l.map (·.2)).filterMap (advSqlText target)).getLast?).getD
              st.current_sql := by
  induction l with
  | nil => exact fun st => ⟨(List.append_nil _).symm, rfl⟩
  | cons p rest ih =>
    intro st
    rw [List.foldl_cons]
    obtain ⟨ih1, ih2⟩ := ih (advStep daoC target lines st p)
    have hstep := advStep_proj daoC target lines st p
    rcases ha : advSqlText target p.2 with _ | s <;> rw [ha] at hstep
    · by_cases hcur : lineParamsHit target p.2 ∧ st.current_sql ≠ ""
      · rw [if_pos hcur] at hstep
        have e1 := congrArg Prod.fst hstep
        have e2 := congrArg Prod.snd hstep
        simp only at e1 e2
        constructor
        · rw [ih1, e1, e2]
          simp only [List.map_cons, advScanSpecGo, ha, if_pos hcur,
            List.append_assoc, List.singleton_append]
        · rw [ih2, e1]
          simp only [List.map_cons, List.filterMap_cons, ha]
      · rw [if_neg hcur] at hstep
        have e1 := congrArg Prod.fst hstep
        have e2 := congrArg Prod.snd hstep
        simp only at e1 e2
        constructor
        · rw [ih1, e1, e2]
          simp only [List.map_cons, advScanSpecGo, ha, if_neg hcur]
        · rw [ih2, e1]
          simp only [List.map_cons, List.filterMap_cons, ha]
    · have e1 := congrArg Prod.fst hstep
      have e2 := congrArg Prod.snd hstep
      simp only at e1 e2
      constructor
      · rw [ih1, e1, e2]
        simp only [List.map_cons, advScanSpecGo, ha]
      · rw [ih2, e1]
        simp only [List.map_cons, List.filterMap_cons, ha, getLastD_cons]

/-- C1 (amended): a later SQL match for the target id does overwrite the
current template: the sql texts carried by the executions of
findAllExecutionsById are exactly those of the last-template-wins reference
scan (each params line emits the most recent preceding SQL event, and the
no-params fallback carries the last SQL event of the whole file). -/
theorem spec_c1_theorem (daoC : String → Option String) (target content : String) :
    (parse_log_file_advanced daoC target (some content)).map (·.sql)
      = advTemplatesSpec target (rustStrLines content) := by
  simp only [parse_log_file_advanced]
  by_cases h0 : content = ""
  · subst h0
    rfl
  · rw [if_neg h0]
    obtain ⟨h1, h2⟩ := advFold_sql_char daoC target (rustStrLines content)
      (rustStrLines content).enum ⟨"", "", "", 0, []⟩
    have henum : ((rustStrLines content).enum.map (·.2)) = rustStrLines content := by
      simp
    rw [henum] at h1 h2
    simp only [List.map_nil, List.nil_append] at h1
    split
    · next hcond =>
      simp only [List.map_cons, List.map_nil]
      have hes : advScanSpecGo target "" (rustStrLines content) = [] := by
        rw [← h1, hcond.1]
        rfl
      rcases hL : ((rustStrLines content).filterMap (advSqlText target)).getLast?
          with _ | s <;> rw [hL] at h2
      · exact absurd h2 hcond.2
      · simp [advTemplatesSpec, hes, hL, h2]
    · next hcond =>
      by_cases hes : advScanSpecGo target "" (rustStrLines content) = []
      · have hexec : ((rustStrLines content).enum.foldl
            (advStep daoC target (rustStrLines content))
            ⟨"", "", "", 0, []⟩).executions = [] := by
          rw [hes] at h1
          exact List.map_eq_nil_iff.mp h1
        have hcur : ((rustStrLines content).enum.foldl
            (advStep daoC target (rustStrLines content))
            ⟨"", "", "", 0, []⟩).current_sql = "" := by
          by_contra hc
          exact hcond ⟨hexec, hc⟩
        rcases hL : ((rustStrLines content).filterMap (advSqlText target)).getLast?
            with _ | s <;> rw [hL] at h2
        · rw [hexec]
          simp [advTemplatesSpec, hes, hL]
        · exfalso
          obtain ⟨line, _, hline⟩ := List.mem_filterMap.mp (getLastQ_mem _ s hL)
          exact advSqlText_ne_empty target line s hline (h2.symm.trans hcur)
      · rw [h1]
        simp [advTemplatesSpec, hes]

set_option maxRecDepth 100000 in
/-- C1: the claim fails on the code: with two SQL events for the id before
one params line, the first SQL event carries S1 but the single returned
execution carries S2, the text of the later SQL event. -/
theorem spec_c1_counterexample :
    ((rustStrLines "id=ab sql=S1\nid=ab sql=S2\nid=ab params=[Int:1:7]").filterMap
        (advSqlText "ab")).head? = some "S1" ∧
      (parse_log_file_advanced (fun _ => none) "ab"
        (some "id=ab sql=S1\nid=ab sql=S2\nid=ab params=[Int:1:7]")).map (·.sql)
        = ["S2"] ∧
      ("S2" : String) ≠ "S1" := by
  refine ⟨by decide, by decide, by decide⟩

end LogHelper
